import Mathlib

/-!
Verification development for the moviestarplanet-bson toolset.

This file shallowly embeds the three core Python modules —
bson_to_json.py (BSONEncoder.default, convert_bson_to_json),
json_to_bson.py (convert_json_to_bson, json_to_bson) and
remove_props.py (process_json) — together with the parts of their
library dependencies that the embedded code exercises (base64
encode/decode, the BSON byte format as read and written by
bson.encode / bson.decode_all, pymongo's ObjectId / DBRef / Timestamp
constructors, and Python's json loads/dumps).

Conventions of the embedding:
  * Python exceptions become an explicit error type threaded via Except.
  * Machine integers are Nat / Int with explicit range conditions.
  * JSON numbers are restricted to integers (no float appears in any
    claim or test input of this repository).
  * Decimal128 is modelled as carrying its decimal string exactly (the
    spec's "decimal string preserved exactly"); its IEEE 754 bit layout
    is outside the embedding, so the byte-level BSON codec excludes it.
  * Strings crossing the byte boundary (BSON layer) are restricted to
    ASCII by well-formedness side conditions.
-/

namespace MspBson

/-- Python exception kinds raised by the modelled code and its library calls. -/
inductive PyErr where
  | typeErr
  | keyErr
  | valueErr
  | binasciiErr
  | invalidId
  | jsonDecodeErr
  | attributeErr
  | unicodeErr
  | overflowErr
  | invalidBson
  | invalidDoc
  | fuelOut
  | modelGap
deriving DecidableEq

/-! ## Python-style string and dict helpers -/

/-- Python substring test: does the needle occur contiguously in the haystack? -/
def listHasSub (needle : List Char) : List Char → Bool
  | [] => needle.isEmpty
  | c :: t => needle.isPrefixOf (c :: t) || listHasSub needle t

/-- Python (needle in haystack) for strings. -/
def strHasSub (hay needle : String) : Bool := listHasSub needle.data hay.data

/-- Python str.startswith. -/
def strStartsW (s pre : String) : Bool := pre.data.isPrefixOf s.data

/-- Python str.split(sep) on a single character separator. -/
def splitChar (sep : Char) : List Char → List (List Char)
  | [] => [[]]
  | c :: t =>
    if c = sep then [] :: splitChar sep t
    else
      match splitChar sep t with
      | [] => [[c]]
      | p :: ps => (c :: p) :: ps

/-- Python (key in dict). -/
def hasKey {α : Type} (fs : List (String × α)) (k : String) : Bool :=
  fs.any (fun p => p.1 == k)

/-- Python dict[key] lookup (first occurrence; the modelled dicts never
carry duplicate keys). -/
def lookupKey {α : Type} : List (String × α) → String → Option α
  | [], _ => none
  | p :: t, k => if p.1 == k then some p.2 else lookupKey t k

/-- Python dict.get(key, default). -/
def lookupKeyD {α : Type} (fs : List (String × α)) (k : String) (d : α) : α :=
  (lookupKey fs k).getD d

/-- Python dict[key] = value: replace at the existing position, else append. -/
def dictPut {α : Type} : List (String × α) → String → α → List (String × α)
  | [], k, v => [(k, v)]
  | p :: t, k, v => if p.1 == k then (k, v) :: t else p :: dictPut t k v

/-! ## base64 (Python base64.b64encode / b64decode, lax alphabet handling)

b64decode with the default validate=False discards characters outside the
alphabet, then requires the data-character count to not be 1 mod 4 and the
padding to complete the final quad (binascii.Error otherwise). -/

/-- Character of a 6-bit value in the standard base64 alphabet. -/
def b64chr (n : Nat) : Char :=
  if n < 26 then Char.ofNat (65 + n)
  else if n < 52 then Char.ofNat (97 + (n - 26))
  else if n < 62 then Char.ofNat (48 + (n - 52))
  else if n = 62 then '+' else '/'

/-- 6-bit value of a base64 alphabet character. -/
def b64val (c : Char) : Nat :=
  if 65 ≤ c.toNat ∧ c.toNat ≤ 90 then c.toNat - 65
  else if 97 ≤ c.toNat ∧ c.toNat ≤ 122 then c.toNat - 97 + 26
  else if 48 ≤ c.toNat ∧ c.toNat ≤ 57 then c.toNat - 48 + 52
  else if c = '+' then 62 else 63

/-- Membership in the base64 alphabet. -/
def isB64Char (c : Char) : Bool :=
  decide (65 ≤ c.toNat ∧ c.toNat ≤ 90) || decide (97 ≤ c.toNat ∧ c.toNat ≤ 122) ||
  decide (48 ≤ c.toNat ∧ c.toNat ≤ 57) || c == '+' || c == '/'

/-- Regroup 8-bit bytes into 6-bit values, most significant bits first. -/
def sixbits : List Nat → List Nat
  | [] => []
  | [b1] => [b1 / 4, b1 % 4 * 16]
  | [b1, b2] => [b1 / 4, b1 % 4 * 16 + b2 / 16, b2 % 16 * 4]
  | b1 :: b2 :: b3 :: r =>
    (b1 / 4) :: (b1 % 4 * 16 + b2 / 16) :: (b2 % 16 * 4 + b3 / 64) :: (b3 % 64) :: sixbits r

/-- Number of '=' padding characters for a byte count. -/
def b64padCount (n : Nat) : Nat :=
  if n % 3 = 1 then 2 else if n % 3 = 2 then 1 else 0

/-- base64.b64encode at the character-list level. -/
def b64encodeL (bs : List Nat) : List Char :=
  (sixbits bs).map b64chr ++ List.replicate (b64padCount bs.length) '='

/-- base64.b64encode producing the utf-8 decoded string, as the sources use it. -/
def b64encode (bs : List Nat) : String := ⟨b64encodeL bs⟩

/-- Regroup 6-bit values back into bytes, dropping a trailing partial byte. -/
def dequads : List Nat → List Nat
  | a :: b :: c :: d :: r => (a * 4 + b / 16) :: (b % 16 * 16 + c / 4) :: (c % 4 * 64 + d) :: dequads r
  | [a, b] => [a * 4 + b / 16]
  | [a, b, c] => [a * 4 + b / 16, b % 16 * 16 + c / 4]
  | _ => []

/-- base64.b64decode at the character-list level; none models binascii.Error. -/
def b64decodeL (cs : List Char) : Option (List Nat) :=
  let ds := cs.filter (fun c => isB64Char c || c == '=')
  let dat := ds.takeWhile (fun c => c != '=')
  let pads := (ds.drop dat.length).takeWhile (fun c => c == '=')
  let n := dat.length
  if n % 4 = 1 then none
  else if n % 4 = 0 then some (dequads (dat.map b64val))
  else if 4 - n % 4 ≤ pads.length then some (dequads (dat.map b64val))
  else none

/-- base64.b64decode on a string. -/
def b64decode (s : String) : Option (List Nat) := b64decodeL s.data

/-! ### base64 round-trip -/

theorem char_toNat_ofNat (n : Nat) (h : n < 55296) : (Char.ofNat n).toNat = n := by
  simp [Char.ofNat, Char.ofNatAux, Char.toNat, Nat.isValidChar, h]
  simp [UInt32.toNat, UInt32.ofNatCore, BitVec.ofNat]

theorem b64val_b64chr (n : Nat) (h : n < 64) : b64val (b64chr n) = n := by
  interval_cases n <;> decide

theorem isB64Char_b64chr (n : Nat) (h : n < 64) : isB64Char (b64chr n) = true := by
  interval_cases n <;> decide

theorem b64chr_ne_eq (n : Nat) (h : n < 64) : b64chr n ≠ '=' := by
  intro hc
  have := isB64Char_b64chr n h
  rw [hc] at this
  exact absurd this (by decide)

theorem b64chr_ne_colon (n : Nat) (h : n < 64) : b64chr n ≠ ':' := by
  intro hc
  have := isB64Char_b64chr n h
  rw [hc] at this
  exact absurd this (by decide)

theorem sixbits_lt64 : ∀ (bs : List Nat), (∀ b ∈ bs, b < 256) →
    ∀ x ∈ sixbits bs, x < 64
  | [], _ => by simp [sixbits]
  | [b1], h => by
    have hb1 : b1 < 256 := h b1 (by simp)
    simp only [sixbits, List.mem_cons, List.not_mem_nil, or_false]
    rintro x (rfl | rfl) <;> omega
  | [b1, b2], h => by
    have hb1 : b1 < 256 := h b1 (by simp)
    have hb2 : b2 < 256 := h b2 (by simp)
    simp only [sixbits, List.mem_cons, List.not_mem_nil, or_false]
    rintro x (rfl | rfl | rfl) <;> omega
  | b1 :: b2 :: b3 :: r, h => by
    have hb1 : b1 < 256 := h b1 (by simp)
    have hb2 : b2 < 256 := h b2 (by simp)
    have hb3 : b3 < 256 := h b3 (by simp)
    have ih := sixbits_lt64 r (fun b hb => h b (by simp [hb]))
    simp only [sixbits, List.mem_cons]
    rintro x (rfl | rfl | rfl | rfl | hx)
    · omega
    · omega
    · omega
    · omega
    · exact ih x hx

/-- Length of the 6-bit regrouping: the quotient contributes full quads and
the remainder 0, 2 or 3 extra values. -/
def sixTail (n : Nat) : Nat := if n % 3 = 1 then 2 else if n % 3 = 2 then 3 else 0

theorem sixTail_add3 (n : Nat) : sixTail (n + 3) = sixTail n := by
  simp [sixTail, Nat.add_mod_right]

theorem sixbits_length : ∀ (bs : List Nat),
    (sixbits bs).length = bs.length / 3 * 4 + sixTail bs.length
  | [] => by simp [sixbits, sixTail]
  | [_] => by simp [sixbits, sixTail]
  | [_, _] => by simp [sixbits, sixTail]
  | b1 :: b2 :: b3 :: r => by
    have ih := sixbits_length r
    have e1 : r.length + 1 + 1 + 1 = r.length + 3 := by omega
    simp only [sixbits, List.length_cons, ih, e1, sixTail_add3,
      Nat.add_div_right _ (by norm_num : 0 < 3)]
    omega

theorem dequads_sixbits : ∀ (bs : List Nat), (∀ b ∈ bs, b < 256) →
    dequads (sixbits bs) = bs
  | [], _ => rfl
  | [b1], h => by
    have hb1 : b1 < 256 := h b1 (by simp)
    simp only [sixbits, dequads]
    congr 1
    omega
  | [b1, b2], h => by
    have hb1 : b1 < 256 := h b1 (by simp)
    have hb2 : b2 < 256 := h b2 (by simp)
    simp only [sixbits, dequads]
    congr 1
    · omega
    · congr 1
      omega
  | b1 :: b2 :: b3 :: r, h => by
    have hb1 : b1 < 256 := h b1 (by simp)
    have hb2 : b2 < 256 := h b2 (by simp)
    have hb3 : b3 < 256 := h b3 (by simp)
    have ih := dequads_sixbits r (fun b hb => h b (by simp [hb]))
    simp only [sixbits, dequads, ih]
    congr 1
    · omega
    · congr 1
      · omega
      · congr 1
        omega

theorem takeWhile_append_of_all {p : Char → Bool} (xs ys : List Char)
    (h : ∀ x ∈ xs, p x = true) :
    (xs ++ ys).takeWhile p = xs ++ ys.takeWhile p := by
  induction xs with
  | nil => simp
  | cons c t ih =>
    have hc : p c = true := h c (by simp)
    have ht := ih (fun x hx => h x (by simp [hx]))
    simp [List.takeWhile_cons, hc, ht]

theorem filter_eq_self_of_all {p : Char → Bool} (xs : List Char)
    (h : ∀ x ∈ xs, p x = true) : xs.filter p = xs :=
  List.filter_eq_self.mpr h

/-- Round-trip of the modelled base64: decoding an encoding recovers the bytes. -/
theorem b64decode_b64encode (bs : List Nat) (h : ∀ b ∈ bs, b < 256) :
    b64decode (b64encode bs) = some bs := by
  have hlt := sixbits_lt64 bs h
  have hdat : ∀ c ∈ (sixbits bs).map b64chr, (isB64Char c || c == '=') = true := by
    intro c hc
    rcases List.mem_map.mp hc with ⟨x, hx, rfl⟩
    simp [isB64Char_b64chr x (hlt x hx)]
  have hpad : ∀ c ∈ List.replicate (b64padCount bs.length) '=', (isB64Char c || c == '=') = true := by
    intro c hc
    rw [List.eq_of_mem_replicate hc]
    decide
  unfold b64decode b64encode b64encodeL b64decodeL
  simp only [String.data]
  rw [List.filter_append, filter_eq_self_of_all _ hdat, filter_eq_self_of_all _ hpad]
  have hne : ∀ c ∈ (sixbits bs).map b64chr, (c != '=') = true := by
    intro c hc
    rcases List.mem_map.mp hc with ⟨x, hx, rfl⟩
    simpa using b64chr_ne_eq x (hlt x hx)
  rw [takeWhile_append_of_all _ _ hne]
  have hrep : (List.replicate (b64padCount bs.length) '=').takeWhile (fun c => c != '=') = [] := by
    cases hn : b64padCount bs.length with
    | zero => simp
    | succ k => simp [List.replicate_succ]
  rw [hrep, List.append_nil]
  have hdrop :
      (((sixbits bs).map b64chr ++ List.replicate (b64padCount bs.length) '=').drop
        ((sixbits bs).map b64chr).length) = List.replicate (b64padCount bs.length) '=' := by
    rw [List.drop_append_of_le_length (le_refl _)]
    simp
  rw [hdrop]
  have hreptake : (List.replicate (b64padCount bs.length) '=').takeWhile (fun c => c == '=') =
      List.replicate (b64padCount bs.length) '=' := by
    apply List.takeWhile_eq_self_iff.mpr
    intro c hc
    rw [List.eq_of_mem_replicate hc]
    decide
  rw [hreptake]
  have hmapmap : ((sixbits bs).map b64chr).map b64val = sixbits bs := by
    have hcongr : ∀ x ∈ sixbits bs, (b64val ∘ b64chr) x = id x := by
      intro x hx
      simp [b64val_b64chr x (hlt x hx)]
    rw [List.map_map, List.map_congr_left hcongr, List.map_id]
  have hlen : ((sixbits bs).map b64chr).length = bs.length / 3 * 4 + sixTail bs.length := by
    rw [List.length_map, sixbits_length]
  rw [hlen, hmapmap, dequads_sixbits bs h]
  simp only [List.length_replicate]
  rcases Nat.lt_or_ge (bs.length % 3) 1 with h0 | h1
  · have e : bs.length % 3 = 0 := by omega
    have : sixTail bs.length = 0 := by simp [sixTail, e]
    rw [this]
    have : (bs.length / 3 * 4 + 0) % 4 = 0 := by omega
    simp [this]
  · rcases Nat.lt_or_ge (bs.length % 3) 2 with h2 | h2
    · have e : bs.length % 3 = 1 := by omega
      have ht : sixTail bs.length = 2 := by simp [sixTail, e]
      have hp : b64padCount bs.length = 2 := by simp [b64padCount, e]
      rw [ht, hp]
      have h4 : (bs.length / 3 * 4 + 2) % 4 = 2 := by omega
      simp [h4]
    · have e : bs.length % 3 = 2 := by omega
      have ht : sixTail bs.length = 3 := by simp [sixTail, e]
      have hp : b64padCount bs.length = 1 := by simp [b64padCount, e]
      rw [ht, hp]
      have h4 : (bs.length / 3 * 4 + 3) % 4 = 3 := by omega
      simp [h4]

/-! ## The document model

JValue embeds the values Python's json module works with (numbers
restricted to integers). BValue embeds the binary-native values handled
by the sources: the json scalars plus Binary/bytes, ObjectId, DBRef,
Timestamp and Decimal128. A DBRef id may be any value, as in pymongo;
Decimal128 carries its decimal string exactly. -/

inductive JValue where
  | null
  | bool (b : Bool)
  | num (n : Int)
  | str (s : String)
  | arr (xs : List JValue)
  | obj (fs : List (String × JValue))

inductive BValue where
  | null
  | bool (b : Bool)
  | num (n : Int)
  | str (s : String)
  | binary (bs : List Nat)
  | objectId (s : String)
  | dbref (collection : String) (id : BValue)
  | timestamp (t : Nat) (i : Nat)
  | decimal128 (s : String)
  | arr (xs : List BValue)
  | obj (fs : List (String × BValue))

/-! ## pymongo constructors used by the decode direction -/

/-- ASCII lowercase of one character (Python str.lower restricted to the
ASCII range the modelled strings use). -/
def asciiLower (c : Char) : Char :=
  if 65 ≤ c.toNat ∧ c.toNat ≤ 90 then Char.ofNat (c.toNat + 32) else c

/-- Python str.lower on the modelled (ASCII) strings. -/
def pyLower (s : String) : String := ⟨s.data.map asciiLower⟩

/-- Hex digit, either case, as accepted by bytes.fromhex. -/
def isHexChar (c : Char) : Bool :=
  decide (48 ≤ c.toNat ∧ c.toNat ≤ 57) || decide (97 ≤ c.toNat ∧ c.toNat ≤ 102) ||
  decide (65 ≤ c.toNat ∧ c.toNat ≤ 70)

/-- A string ObjectId accepts: exactly 24 hex characters. -/
def isOidStr (s : String) : Bool := s.data.length == 24 && s.data.all isHexChar

/-- Lowercase-hex 24-character string: the form str(ObjectId) emits. -/
def isOidLower (s : String) : Bool :=
  s.data.length == 24 &&
  s.data.all (fun c => decide (48 ≤ c.toNat ∧ c.toNat ≤ 57) ||
    decide (97 ≤ c.toNat ∧ c.toNat ≤ 102))

/-- Placeholder for the value of str(ObjectId()) when pymongo generates a
fresh id from ObjectId(None); the real id is random, only the success of
the construction matters to the claims. -/
def genOidStr : String := "aaaaaaaaaaaaaaaaaaaaaaaa"

/-- pymongo ObjectId(v) on a json-derived argument: None generates a fresh
id, a 24-hex-character string is accepted (stored lowercased, as str()
then shows it), any other string raises InvalidId, anything else raises
TypeError. -/
def objectIdOf : JValue → Except PyErr BValue
  | .null => .ok (.objectId genOidStr)
  | .str s => if isOidStr s then .ok (.objectId (pyLower s)) else .error .invalidId
  | _ => .error .typeErr

/-- Python str() of the binary-native values, as BSONEncoder applies it to
DBRef ids. The scalar, ObjectId, Timestamp and Decimal128 cases are exact;
the container and blob cases are placeholders (no claim and no
well-formedness condition reaches them). -/
def pyStr : BValue → String
  | .null => "None"
  | .bool b => if b then "True" else "False"
  | .num n => toString n
  | .str s => s
  | .objectId s => s
  | .decimal128 s => s
  | .timestamp t i => "Timestamp(" ++ toString t ++ ", " ++ toString i ++ ")"
  | .binary _ => "bytes-repr"
  | .dbref c _ => "DBRef-repr " ++ c
  | .arr _ => "list-repr"
  | .obj _ => "dict-repr"

/-! ## Encode direction: convert_bson_to_json plus BSONEncoder.default

convert_bson_to_json recurses through dicts and lists and turns bytes
(hence also Binary, a bytes subclass) into the $binary tag form; during
json.dump, BSONEncoder.default maps the remaining non-native values
(ObjectId, DBRef, Timestamp, Decimal128) to their tag forms. The composed
effect on a decoded document tree is this total mapping. -/

mutual
def encodeBson : BValue → JValue
  | .null => .null
  | .bool b => .bool b
  | .num n => .num n
  | .str s => .str s
  | .binary bs => .obj [("$binary", .str (b64encode bs))]
  | .objectId s => .obj [("$oid", .str s)]
  | .dbref c id => .obj [("$ref", .str c), ("$id", .str (pyStr id))]
  | .timestamp t i => .obj [("$timestamp", .obj [("t", .num (t : Int)), ("i", .num (i : Int))])]
  | .decimal128 s => .obj [("$numberDecimal", .str s)]
  | .arr xs => .arr (encodeBsonList xs)
  | .obj fs => .obj (encodeBsonFields fs)
termination_by structural v => v

def encodeBsonList : List BValue → List JValue
  | [] => []
  | x :: t => encodeBson x :: encodeBsonList t
termination_by structural v => v

def encodeBsonFields : List (String × BValue) → List (String × JValue)
  | [] => []
  | (k, v) :: t => (k, encodeBson v) :: encodeBsonFields t
termination_by structural v => v
end

/-! ## Decode direction: convert_json_to_bson -/

mutual
def convertJsonToBson : JValue → Except PyErr BValue
  | .obj fs =>
    if hasKey fs "$binary" then
      match lookupKey fs "$binary" with
      | some (.str s) =>
        match b64decode s with
        | some bs => .ok (.binary bs)
        | none => .error .binasciiErr
      | _ => .error .typeErr
    else if hasKey fs "$oid" then
      objectIdOf ((lookupKey fs "$oid").getD .null)
    else if hasKey fs "$ref" && hasKey fs "$id" then
      match objectIdOf ((lookupKey fs "$id").getD .null) with
      | .error e => .error e
      | .ok oidv =>
        match lookupKey fs "$ref" with
        | some (.str c) => .ok (.dbref c oidv)
        | _ => .error .typeErr
    else if hasKey fs "$timestamp" then
      match lookupKey fs "$timestamp" with
      | some (.obj ts) =>
        match lookupKey ts "t" with
        | none => .error .keyErr
        | some tv =>
          match lookupKey ts "i" with
          | none => .error .keyErr
          | some iv =>
            match tv, iv with
            | .num t, .num i =>
              if 0 ≤ t ∧ t < 4294967296 then
                if 0 ≤ i ∧ i < 4294967296 then .ok (.timestamp t.toNat i.toNat)
                else .error .valueErr
              else .error .valueErr
            | _, _ => .error .typeErr
      | _ => .error .typeErr
    else if hasKey fs "$numberDecimal" then
      match lookupKey fs "$numberDecimal" with
      | some (.str s) => .ok (.decimal128 s)
      | _ => .error .typeErr
    else
      match convertFields fs with
      | .ok fs' => .ok (.obj fs')
      | .error e => .error e
  | .arr xs =>
    match convertList xs with
    | .ok ys => .ok (.arr ys)
    | .error e => .error e
  | .str s =>
    if strStartsW s "$binary:" then
      match splitChar ':' s.data with
      | _ :: p :: _ =>
        match b64decodeL p with
        | some bs => .ok (.binary bs)
        | none => .error .binasciiErr
      | _ => .error .modelGap
    else .ok (.str s)
  | .null => .ok .null
  | .bool b => .ok (.bool b)
  | .num n => .ok (.num n)
termination_by structural v => v

def convertList : List JValue → Except PyErr (List BValue)
  | [] => .ok []
  | x :: t =>
    match convertJsonToBson x with
    | .error e => .error e
    | .ok y =>
      match convertList t with
      | .error e => .error e
      | .ok ys => .ok (y :: ys)
termination_by structural v => v

def convertFields : List (String × JValue) → Except PyErr (List (String × BValue))
  | [] => .ok []
  | (k, v) :: t =>
    match convertJsonToBson v with
    | .error e => .error e
    | .ok y =>
      match convertFields t with
      | .error e => .error e
      | .ok ys => .ok ((k, y) :: ys)
termination_by structural v => v
end

/-! ## Round-trip of the tagged-JSON codec (encode then decode)

Well-formedness of a binary-native document for the round-trip: blob
bytes are bytes, ObjectId strings have the 24-lowercase-hex form str()
emits, DBRef ids are ObjectIds, Timestamp fields are in uint32 range,
plain strings do not start with the reserved legacy marker, and plain
mappings contain no reserved tag key (the spec's reserved-vocabulary
invariant). -/

/-- No reserved tag key is present in a plain mapping, in the exact shape
the decoder tests: $binary, $oid, $ref together with $id, $timestamp,
$numberDecimal. -/
def noTagKeys {α : Type} (fs : List (String × α)) : Bool :=
  !hasKey fs "$binary" && !hasKey fs "$oid" && !(hasKey fs "$ref" && hasKey fs "$id") &&
  !hasKey fs "$timestamp" && !hasKey fs "$numberDecimal"

mutual
def wfRT : BValue → Bool
  | .null => true
  | .bool _ => true
  | .num _ => true
  | .str s => !strStartsW s "$binary:"
  | .binary bs => bs.all (fun b => decide (b < 256))
  | .objectId s => isOidLower s
  | .dbref _ id =>
    match id with
    | .objectId s => isOidLower s
    | _ => false
  | .timestamp t i => decide (t < 4294967296) && decide (i < 4294967296)
  | .decimal128 _ => true
  | .arr xs => wfRTList xs
  | .obj fs => noTagKeys fs && wfRTFields fs
termination_by structural v => v

def wfRTList : List BValue → Bool
  | [] => true
  | x :: t => wfRT x && wfRTList t
termination_by structural v => v

def wfRTFields : List (String × BValue) → Bool
  | [] => true
  | (_, v) :: t => wfRT v && wfRTFields t
termination_by structural v => v
end

theorem asciiLower_eq_self (c : Char) (h : ¬(65 ≤ c.toNat ∧ c.toNat ≤ 90)) :
    asciiLower c = c := by
  simp [asciiLower, h]

theorem pyLower_of_oidLower (s : String) (h : isOidLower s = true) : pyLower s = s := by
  unfold isOidLower at h
  rw [Bool.and_eq_true] at h
  have hall := List.all_eq_true.mp h.2
  cases s with
  | mk data =>
    unfold pyLower
    congr 1
    have hfix : ∀ c ∈ data, asciiLower c = c := by
      intro c hc
      have := hall c hc
      rw [Bool.or_eq_true, decide_eq_true_eq, decide_eq_true_eq] at this
      exact asciiLower_eq_self c (by omega)
    calc data.map asciiLower = data.map id := List.map_congr_left hfix
    _ = data := List.map_id data

theorem isOidStr_of_lower (s : String) (h : isOidLower s = true) : isOidStr s = true := by
  unfold isOidLower at h
  rw [Bool.and_eq_true] at h
  unfold isOidStr
  rw [Bool.and_eq_true]
  refine ⟨h.1, List.all_eq_true.mpr ?_⟩
  intro c hc
  have := List.all_eq_true.mp h.2 c hc
  rw [Bool.or_eq_true, decide_eq_true_eq, decide_eq_true_eq] at this
  unfold isHexChar
  rw [Bool.or_eq_true, Bool.or_eq_true, decide_eq_true_eq, decide_eq_true_eq, decide_eq_true_eq]
  omega

theorem hasKey_encodeBsonFields (fs : List (String × BValue)) (k : String) :
    hasKey (encodeBsonFields fs) k = hasKey fs k := by
  induction fs with
  | nil => rfl
  | cons p t ih =>
    cases p with
    | mk k' v => simp [encodeBsonFields, hasKey] at ih ⊢; rw [ih]

mutual
theorem roundTripB : ∀ (v : BValue), wfRT v = true →
    convertJsonToBson (encodeBson v) = .ok v
  | .null, _ => rfl
  | .bool _, _ => rfl
  | .num _, _ => rfl
  | .str s, h => by
    have hs : strStartsW s "$binary:" = false := by
      unfold wfRT at h
      simpa using h
    simp [encodeBson, convertJsonToBson, hs]
  | .binary bs, h => by
    have hb : ∀ b ∈ bs, b < 256 := by
      unfold wfRT at h
      intro b hbmem
      have := List.all_eq_true.mp h b hbmem
      exact decide_eq_true_eq.mp this
    simp [encodeBson, convertJsonToBson, hasKey, lookupKey, b64decode_b64encode bs hb]
  | .objectId s, h => by
    have ho : isOidLower s = true := h
    simp [encodeBson, convertJsonToBson, hasKey, lookupKey, objectIdOf,
      isOidStr_of_lower s ho, pyLower_of_oidLower s ho]
  | .dbref c id, h => by
    cases id with
    | objectId s =>
      have ho : isOidLower s = true := h
      simp [encodeBson, convertJsonToBson, hasKey, lookupKey, pyStr, objectIdOf,
        isOidStr_of_lower s ho, pyLower_of_oidLower s ho]
    | null => exact absurd h (by simp [wfRT])
    | bool b => exact absurd h (by simp [wfRT])
    | num n => exact absurd h (by simp [wfRT])
    | str s => exact absurd h (by simp [wfRT])
    | binary bs => exact absurd h (by simp [wfRT])
    | dbref c' id' => exact absurd h (by simp [wfRT])
    | timestamp t i => exact absurd h (by simp [wfRT])
    | decimal128 s => exact absurd h (by simp [wfRT])
    | arr xs => exact absurd h (by simp [wfRT])
    | obj fs => exact absurd h (by simp [wfRT])
  | .timestamp t i, h => by
    unfold wfRT at h
    rw [Bool.and_eq_true, decide_eq_true_eq, decide_eq_true_eq] at h
    have ht : (0 : Int) ≤ (t : Int) ∧ (t : Int) < 4294967296 := by omega
    have hi : (0 : Int) ≤ (i : Int) ∧ (i : Int) < 4294967296 := by omega
    simp [encodeBson, convertJsonToBson, hasKey, lookupKey, ht, hi]
  | .decimal128 s, _ => by
    simp [encodeBson, convertJsonToBson, hasKey, lookupKey]
  | .arr xs, h => by
    have hl := roundTripList xs (by unfold wfRT at h; exact h)
    simp [encodeBson, convertJsonToBson, hl]
  | .obj fs, h => by
    unfold wfRT at h
    rw [Bool.and_eq_true] at h
    have hnt := h.1
    unfold noTagKeys at hnt
    simp only [Bool.and_eq_true, Bool.not_eq_true', Bool.and_eq_false_iff] at hnt
    have hf := roundTripFields fs h.2
    obtain ⟨⟨⟨⟨h1, h2⟩, h3⟩, h4⟩, h5⟩ := hnt
    simp only [encodeBson, convertJsonToBson, hasKey_encodeBsonFields, h1, h2, h4, h5,
      Bool.false_eq_true, if_false, hf]
    rcases h3 with h3 | h3 <;> simp [h3]
termination_by structural v => v

theorem roundTripList : ∀ (xs : List BValue), wfRTList xs = true →
    convertList (encodeBsonList xs) = .ok xs
  | [], _ => rfl
  | x :: t, h => by
    unfold wfRTList at h
    rw [Bool.and_eq_true] at h
    have hx := roundTripB x h.1
    have ht := roundTripList t h.2
    simp [encodeBsonList, convertList, hx, ht]
termination_by structural v => v

theorem roundTripFields : ∀ (fs : List (String × BValue)), wfRTFields fs = true →
    convertFields (encodeBsonFields fs) = .ok fs
  | [], _ => rfl
  | (k, v) :: t, h => by
    unfold wfRTFields at h
    rw [Bool.and_eq_true] at h
    have hv := roundTripB v h.1
    have ht := roundTripFields t h.2
    simp [encodeBsonFields, convertFields, hv, ht]
termination_by structural v => v
end

/-! ## UTF-8 (Python bytes.decode / str.encode with the default strict codec)

Only exercised computationally, on the concrete payloads of the filter
claims. Encoding covers all scalar values; decoding rejects continuation
errors, overlong forms, surrogates and out-of-range leads as CPython does. -/

def utf8EncodeChar (c : Char) : List Nat :=
  let n := c.toNat
  if n < 128 then [n]
  else if n < 2048 then [192 + n / 64, 128 + n % 64]
  else if n < 65536 then [224 + n / 4096, 128 + n / 64 % 64, 128 + n % 64]
  else [240 + n / 262144, 128 + n / 4096 % 64, 128 + n / 64 % 64, 128 + n % 64]

def utf8Encode (s : String) : List Nat := (s.data.map utf8EncodeChar).flatten

/-- Is a byte a UTF-8 continuation byte, and its payload. -/
def isCont (b : Nat) : Bool := decide (128 ≤ b ∧ b < 192)

def utf8DecodeL : List Nat → Option (List Char)
  | [] => some []
  | b :: rest =>
    if b < 128 then (utf8DecodeL rest).map (fun cs => Char.ofNat b :: cs)
    else if 194 ≤ b ∧ b ≤ 223 then
      match rest with
      | b2 :: rest2 =>
        if isCont b2 then (utf8DecodeL rest2).map (fun cs => Char.ofNat ((b - 192) * 64 + (b2 - 128)) :: cs)
        else none
      | [] => none
    else if 224 ≤ b ∧ b ≤ 239 then
      match rest with
      | b2 :: b3 :: rest3 =>
        if isCont b2 && isCont b3 &&
           !(b = 224 && b2 < 160) && !(b = 237 && 160 ≤ b2) then
          (utf8DecodeL rest3).map
            (fun cs => Char.ofNat ((b - 224) * 4096 + (b2 - 128) * 64 + (b3 - 128)) :: cs)
        else none
      | _ => none
    else if 240 ≤ b ∧ b ≤ 244 then
      match rest with
      | b2 :: b3 :: b4 :: rest4 =>
        if isCont b2 && isCont b3 && isCont b4 &&
           !(b = 240 && b2 < 144) && !(b = 244 && 144 ≤ b2) then
          (utf8DecodeL rest4).map
            (fun cs => Char.ofNat ((b - 240) * 262144 + (b2 - 128) * 4096 + (b3 - 128) * 64 + (b4 - 128)) :: cs)
        else none
      | _ => none
    else none

/-- Python bytes.decode('utf-8'); none models UnicodeDecodeError. -/
def utf8Decode (bs : List Nat) : Option String := (utf8DecodeL bs).map (fun cs => ⟨cs⟩)

/-! ## json.dumps (default separators, ensure_ascii) -/

/-- Four lowercase hex digits. -/
def hex4 (n : Nat) : List Char :=
  let d := fun k => if k < 10 then Char.ofNat (48 + k) else Char.ofNat (87 + k)
  [d (n / 4096 % 16), d (n / 256 % 16), d (n / 16 % 16), d (n % 16)]

def jsonEscapeChar (c : Char) : List Char :=
  let n := c.toNat
  if c = '"' then ['\\', '"']
  else if c = '\\' then ['\\', '\\']
  else if c = '\n' then ['\\', 'n']
  else if c = '\t' then ['\\', 't']
  else if c = '\r' then ['\\', 'r']
  else if n = 8 then ['\\', 'b']
  else if n = 12 then ['\\', 'f']
  else if n < 32 then '\\' :: 'u' :: hex4 n
  else if n < 128 then [c]
  else if n < 65536 then '\\' :: 'u' :: hex4 n
  else ('\\' :: 'u' :: hex4 (55296 + (n - 65536) / 1024)) ++
       ('\\' :: 'u' :: hex4 (56320 + (n - 65536) % 1024))

def jsonDumpStr (s : String) : String := ⟨'"' :: (s.data.map jsonEscapeChar).flatten ++ ['"']⟩

mutual
def jsonDumps : JValue → String
  | .null => "null"
  | .bool b => if b then "true" else "false"
  | .num n => toString n
  | .str s => jsonDumpStr s
  | .arr xs => "[" ++ dumpJoinList xs ++ "]"
  | .obj fs => "\x7b" ++ dumpJoinFields fs ++ "\x7d"
termination_by structural v => v

def dumpJoinList : List JValue → String
  | [] => ""
  | [x] => jsonDumps x
  | x :: y :: t => jsonDumps x ++ ", " ++ dumpJoinList (y :: t)
termination_by structural v => v

def dumpJoinFields : List (String × JValue) → String
  | [] => ""
  | [(k, v)] => jsonDumpStr k ++ ": " ++ jsonDumps v
  | (k, v) :: p :: t => jsonDumpStr k ++ ": " ++ jsonDumps v ++ ", " ++ dumpJoinFields (p :: t)
termination_by structural v => v
end

/-! ## json.loads (recursive descent, integers only; floats do not occur in
this repository's data and are outside the embedding) -/

def isJsonWsChar (c : Char) : Bool := c == ' ' || c == '\t' || c == '\n' || c == '\r'

def skipWs (cs : List Char) : List Char := cs.dropWhile isJsonWsChar

def isDigitChar (c : Char) : Bool := decide (48 ≤ c.toNat ∧ c.toNat ≤ 57)

def digitsAux : List Char → Nat → (Nat × List Char)
  | [], acc => (acc, [])
  | c :: rest, acc =>
    if isDigitChar c then digitsAux rest (acc * 10 + (c.toNat - 48)) else (acc, c :: rest)

def hexValOf (c : Char) : Option Nat :=
  if 48 ≤ c.toNat ∧ c.toNat ≤ 57 then some (c.toNat - 48)
  else if 97 ≤ c.toNat ∧ c.toNat ≤ 102 then some (c.toNat - 87)
  else if 65 ≤ c.toNat ∧ c.toNat ≤ 70 then some (c.toNat - 55)
  else none

def parseJStr : List Char → Option (List Char × List Char)
  | [] => none
  | c :: rest =>
    if c = '"' then some ([], rest)
    else if c = '\\' then
      match rest with
      | [] => none
      | e :: rest2 =>
        if e = 'u' then
          match rest2 with
          | h1 :: h2 :: h3 :: h4 :: rest6 =>
            match hexValOf h1, hexValOf h2, hexValOf h3, hexValOf h4 with
            | some v1, some v2, some v3, some v4 =>
              let n := v1 * 4096 + v2 * 256 + v3 * 16 + v4
              if 55296 ≤ n ∧ n < 57344 then none
              else (parseJStr rest6).map (fun p => (Char.ofNat n :: p.1, p.2))
            | _, _, _, _ => none
          | _ => none
        else
          let ec : Option Char :=
            if e = '"' then some '"'
            else if e = '\\' then some '\\'
            else if e = '/' then some '/'
            else if e = 'b' then some (Char.ofNat 8)
            else if e = 'f' then some (Char.ofNat 12)
            else if e = 'n' then some '\n'
            else if e = 'r' then some '\r'
            else if e = 't' then some '\t'
            else none
          match ec with
          | some ch => (parseJStr rest2).map (fun p => (ch :: p.1, p.2))
          | none => none
    else if c.toNat < 32 then none
    else (parseJStr rest).map (fun p => (c :: p.1, p.2))

mutual
def parseJVal : Nat → List Char → Option (JValue × List Char)
  | 0, _ => none
  | f + 1, cs =>
    match cs with
    | [] => none
    | c :: rest =>
      if c = 'n' then
        if "ull".data.isPrefixOf rest then some (.null, rest.drop 3) else none
      else if c = 't' then
        if "rue".data.isPrefixOf rest then some (.bool true, rest.drop 3) else none
      else if c = 'f' then
        if "alse".data.isPrefixOf rest then some (.bool false, rest.drop 4) else none
      else if c = '"' then
        (parseJStr rest).map (fun p => (.str ⟨p.1⟩, p.2))
      else if c = '[' then
        let cs1 := skipWs rest
        match cs1 with
        | ']' :: rest1 => some (.arr [], rest1)
        | _ => parseJItems f cs1
      else if c = '{' then
        let cs1 := skipWs rest
        match cs1 with
        | '}' :: rest1 => some (.obj [], rest1)
        | _ => parseJMembers f [] cs1
      else if c = '-' then
        match rest with
        | d :: _ =>
          if isDigitChar d then
            let p := digitsAux rest 0
            match p.2 with
            | e :: _ => if e = '.' || e = 'e' || e = 'E' then none else some (.num (-(p.1 : Int)), p.2)
            | [] => some (.num (-(p.1 : Int)), [])
          else none
        | [] => none
      else if isDigitChar c then
        let p := digitsAux (c :: rest) 0
        match p.2 with
        | e :: _ => if e = '.' || e = 'e' || e = 'E' then none else some (.num (p.1 : Int), p.2)
        | [] => some (.num (p.1 : Int), [])
      else none
termination_by structural f => f

def parseJItems : Nat → List Char → Option (JValue × List Char)
  | 0, _ => none
  | f + 1, cs =>
    match parseJVal f cs with
    | none => none
    | some (v, rest) =>
      match skipWs rest with
      | ',' :: rest2 =>
        match parseJItems f (skipWs rest2) with
        | some (.arr vs, rest3) => some (.arr (v :: vs), rest3)
        | _ => none
      | ']' :: rest2 => some (.arr [v], rest2)
      | _ => none
termination_by structural f => f

def parseJMembers : Nat → List (String × JValue) → List Char → Option (JValue × List Char)
  | 0, _, _ => none
  | f + 1, acc, cs =>
    match cs with
    | '"' :: rest =>
      match parseJStr rest with
      | none => none
      | some (kc, rest1) =>
        match skipWs rest1 with
        | ':' :: rest2 =>
          match parseJVal f (skipWs rest2) with
          | none => none
          | some (v, rest3) =>
            let acc1 := dictPut acc ⟨kc⟩ v
            match skipWs rest3 with
            | ',' :: rest4 => parseJMembers f acc1 (skipWs rest4)
            | '}' :: rest4 => some (.obj acc1, rest4)
            | _ => none
        | _ => none
    | _ => none
termination_by structural f => f
end

/-- Python json.loads; error models json.JSONDecodeError. -/
def jsonLoads (s : String) : Except PyErr JValue :=
  match parseJVal (2 * s.data.length + 4) (skipWs s.data) with
  | some (v, rest) => if (skipWs rest).isEmpty then .ok v else .error .jsonDecodeErr
  | none => .error .jsonDecodeErr

/-! ## The payload filter: remove_props.process_json -/

/-- Python string == value comparison (str equals only an equal str). -/
def pyEqStr (s : String) : JValue → Bool
  | .str t => s == t
  | _ => false

/-- Python (needle in container) for a string needle: substring test on a
string, membership on a list, key membership on a dict, TypeError on the
non-container scalars. -/
def pyInStr (needle : String) : JValue → Except PyErr Bool
  | .str hay => .ok (strHasSub hay needle)
  | .arr xs => .ok (xs.any (pyEqStr needle))
  | .obj fs => .ok (hasKey fs needle)
  | _ => .error .typeErr

/-- The element predicate of the list comprehension in process_json:
search_key not in elem.get('AssetName', '') and elem.get('InventoryId') is None.
A non-dict element raises AttributeError on .get. -/
def keepElem (key : String) (elem : JValue) : Except PyErr Bool :=
  match elem with
  | .obj efs =>
    match pyInStr key (lookupKeyD efs "AssetName" (.str "")) with
    | .error e => .error e
    | .ok contained =>
      if contained then .ok false
      else
        match lookupKey efs "InventoryId" with
        | none => .ok true
        | some .null => .ok true
        | some _ => .ok false
  | _ => .error .attributeErr

/-- The rewritten Elements list: elements kept by keepElem, in order; the
first raised exception aborts the comprehension. -/
def filterElements (key : String) : List JValue → Except PyErr (List JValue)
  | [] => .ok []
  | e :: t =>
    match keepElem key e with
    | .error err => .error err
    | .ok true =>
      match filterElements key t with
      | .ok r => .ok (e :: r)
      | .error err => .error err
    | .ok false => filterElements key t

/-- Outcome of the Content block of process_json on one node. -/
inductive CtResult where
  | rewritten (newContent : JValue)
  | skipped
  | raised (e : PyErr)

/-- The body of the (if 'Content' in data) block, applied to the value of
the Content field. skipped models the caught exceptions
(json.JSONDecodeError, TypeError): the node is left unmodified. raised
models every uncaught exception, in particular binascii.Error from
malformed base64 and UnicodeDecodeError, which the except clause does not
name. -/
def contentTransform (key : String) (cv : JValue) : CtResult :=
  match cv with
  | .obj cfs =>
    match lookupKeyD cfs "$binary" (.str "") with
    | .str s =>
      match b64decode s with
      | none => .raised .binasciiErr
      | some bytes =>
        match utf8Decode bytes with
        | none => .raised .unicodeErr
        | some text =>
          match jsonLoads text with
          | .error _ => .skipped
          | .ok decoded =>
            match decoded with
            | .obj dfs =>
              match lookupKey dfs "Elements" with
              | some (.arr elems) =>
                match filterElements key elems with
                | .error e => .raised e
                | .ok newElems =>
                  let d2 := JValue.obj (dictPut dfs "Elements" (.arr newElems))
                  .rewritten (.obj [("$binary", .str (b64encode (utf8Encode (jsonDumps d2))))])
              | _ =>
                .rewritten (.obj [("$binary", .str (b64encode (utf8Encode (jsonDumps decoded))))])
            | .arr items =>
              if items.any (pyEqStr "Elements") then .raised .typeErr
              else .rewritten (.obj [("$binary", .str (b64encode (utf8Encode (jsonDumps decoded))))])
            | .str t =>
              if strHasSub t "Elements" then .raised .typeErr
              else .rewritten (.obj [("$binary", .str (b64encode (utf8Encode (jsonDumps decoded))))])
            | _ => .raised .typeErr
    | _ => .skipped
  | _ => .raised .attributeErr

/-- Is a value one Python's isinstance(value, (dict, list)) accepts? -/
def isContainer : JValue → Bool
  | .obj _ => true
  | .arr _ => true
  | _ => false

/-! process_json mutates its tree in place; the model rebuilds the tree.
The recursion descends into the freshly written Content node exactly as
the source's items() loop does, so it is fueled; the wrapper supplies
fuel that is never exhausted on the inputs of the claims. -/

mutual
def processJsonF : Nat → String → JValue → Except PyErr JValue
  | 0, _, _ => .error .fuelOut
  | f + 1, key, v =>
    match v with
    | .obj fs =>
      if hasKey fs "Content" then
        match contentTransform key ((lookupKey fs "Content").getD .null) with
        | .raised e => .error e
        | .skipped => .ok (.obj fs)
        | .rewritten nc =>
          match procChildrenF f key (dictPut fs "Content" nc) with
          | .ok fs2 => .ok (.obj fs2)
          | .error e => .error e
      else
        match procChildrenF f key fs with
        | .ok fs2 => .ok (.obj fs2)
        | .error e => .error e
    | .arr xs =>
      match procItemsF f key xs with
      | .ok ys => .ok (.arr ys)
      | .error e => .error e
    | other => .ok other
termination_by structural f => f

def procChildrenF : Nat → String → List (String × JValue) → Except PyErr (List (String × JValue))
  | 0, _, _ => .error .fuelOut
  | f + 1, key, fs =>
    match fs with
    | [] => .ok []
    | (k, v) :: t =>
      match (if isContainer v then processJsonF f key v else .ok v) with
      | .error e => .error e
      | .ok v2 =>
        match procChildrenF f key t with
        | .ok t2 => .ok ((k, v2) :: t2)
        | .error e => .error e
termination_by structural f => f

def procItemsF : Nat → String → List JValue → Except PyErr (List JValue)
  | 0, _, _ => .error .fuelOut
  | f + 1, key, xs =>
    match xs with
    | [] => .ok []
    | v :: t =>
      match (if isContainer v then processJsonF f key v else .ok v) with
      | .error e => .error e
      | .ok v2 =>
        match procItemsF f key t with
        | .ok t2 => .ok (v2 :: t2)
        | .error e => .error e
termination_by structural f => f
end

mutual
/-- Node count, for the fuel of the processJson wrapper. -/
def jSize : JValue → Nat
  | .obj fs => 1 + jSizeF fs
  | .arr xs => 1 + jSizeL xs
  | _ => 1
termination_by structural v => v

def jSizeL : List JValue → Nat
  | [] => 1
  | x :: t => 1 + jSize x + jSizeL t
termination_by structural v => v

def jSizeF : List (String × JValue) → Nat
  | [] => 1
  | (_, v) :: t => 1 + jSize v + jSizeF t
termination_by structural v => v
end

/-- remove_props.process_json on a whole tree (pure rebuild of the in-place
mutation; an error is an exception escaping process_json, which in
remove_props aborts the filtering pass before the file is rewritten). -/
def processJson (key : String) (v : JValue) : Except PyErr JValue :=
  processJsonF (4 * jSize v + 8) key v

/-! ## The BSON byte format, as written by bson.encode and read by
bson.decode_all

The embedded fragment covers the element types the repository's data can
contain after convert_json_to_bson: null, bool, int32/int64, string,
subtype-0 binary, ObjectId, DBRef (an embedded document with $ref and
$id, re-recognized on decode by pymongo's _get_object), timestamp,
arrays and documents. Decimal128's IEEE bit layout and non-ASCII text
are outside the embedding; the well-formedness predicate wfBson excludes
them and parse answers modelGap where only such inputs could reach. -/

def i32le (n : Nat) : List Nat :=
  [n % 256, n / 256 % 256, n / 65536 % 256, n / 16777216 % 256]

def readI32 : List Nat → Option (Nat × List Nat)
  | a :: b :: c :: d :: r => some (a + 256 * b + 65536 * c + 16777216 * d, r)
  | _ => none

/-- Two's-complement little-endian int32 of an in-range Int. -/
def int32Bytes (n : Int) : List Nat := i32le (n.emod 4294967296).toNat

/-- Two's-complement little-endian int64 of an in-range Int. -/
def int64Bytes (n : Int) : List Nat :=
  let m := (n.emod 18446744073709551616).toNat
  i32le (m % 4294967296) ++ i32le (m / 4294967296)

/-- UTF-8 bytes of an ASCII string (the fragment's strings are ASCII). -/
def asciiBytes (s : String) : List Nat := s.data.map Char.toNat

/-- BSON cstring: bytes then a NUL terminator. -/
def cstr (s : String) : List Nat := asciiBytes s ++ [0]

def hexVal (c : Char) : Nat :=
  if 48 ≤ c.toNat ∧ c.toNat ≤ 57 then c.toNat - 48
  else if 97 ≤ c.toNat ∧ c.toNat ≤ 102 then c.toNat - 87
  else if 65 ≤ c.toNat ∧ c.toNat ≤ 70 then c.toNat - 55
  else 0

def hexPairsToBytes : List Char → List Nat
  | c1 :: c2 :: r => (hexVal c1 * 16 + hexVal c2) :: hexPairsToBytes r
  | _ => []

/-- The 12 ObjectId bytes of a 24-hex-character string. -/
def oidBytes (s : String) : List Nat := hexPairsToBytes s.data

def toHexChar (n : Nat) : Char :=
  if n < 10 then Char.ofNat (48 + n) else Char.ofNat (87 + n)

def bytesToHex : List Nat → List Char
  | [] => []
  | b :: r => toHexChar (b / 16) :: toHexChar (b % 16) :: bytesToHex r

/-- Decimal digits of a Nat, most significant first (str(i) for the array
keys pymongo generates). -/
def natDigitsAux : Nat → Nat → List Char
  | 0, _ => []
  | f + 1, n =>
    if n < 10 then [Char.ofNat (48 + n)]
    else natDigitsAux f (n / 10) ++ [Char.ofNat (48 + n % 10)]

def natStr (n : Nat) : String := ⟨natDigitsAux (n + 1) n⟩

/-- ASCII-only string (every char below 128). -/
def asciiOk (s : String) : Bool := s.data.all (fun c => decide (c.toNat < 128))

/-- Valid BSON key: ASCII with no NUL byte. -/
def keyOk (s : String) : Bool := s.data.all (fun c => decide (0 < c.toNat ∧ c.toNat < 128))

mutual
/-- Per-type element encoder: type tag and payload bytes, mirroring
pymongo's _ENCODERS table on the embedded fragment. -/
def encVal : BValue → Except PyErr (Nat × List Nat)
  | .null => .ok (10, [])
  | .bool b => .ok (8, [if b then 1 else 0])
  | .num n =>
    if -2147483648 ≤ n ∧ n < 2147483648 then .ok (16, int32Bytes n)
    else if -9223372036854775808 ≤ n ∧ n < 9223372036854775808 then .ok (18, int64Bytes n)
    else .error .overflowErr
  | .str s =>
    if asciiOk s then .ok (2, i32le (s.data.length + 1) ++ asciiBytes s ++ [0])
    else .error .modelGap
  | .binary bs => .ok (5, i32le bs.length ++ 0 :: bs)
  | .objectId s => .ok (7, oidBytes s)
  | .timestamp t i => .ok (17, i32le i ++ i32le t)
  | .dbref c id =>
    match encVal id with
    | .error e => .error e
    | .ok (idTag, idPayload) =>
      if asciiOk c then
        let refElem := 2 :: cstr "$ref" ++ i32le (c.data.length + 1) ++ asciiBytes c ++ [0]
        let idElem := idTag :: cstr "$id" ++ idPayload
        let body := refElem ++ idElem
        .ok (3, i32le (4 + body.length + 1) ++ body ++ [0])
      else .error .modelGap
  | .decimal128 _ => .error .modelGap
  | .arr xs =>
    match encArrItems 0 xs with
    | .error e => .error e
    | .ok body => .ok (4, i32le (4 + body.length + 1) ++ body ++ [0])
  | .obj fs =>
    match encElems fs with
    | .error e => .error e
    | .ok body => .ok (3, i32le (4 + body.length + 1) ++ body ++ [0])
termination_by structural v => v

def encElems : List (String × BValue) → Except PyErr (List Nat)
  | [] => .ok []
  | (k, v) :: t =>
    if k.data.any (fun c => c.toNat = 0) then .error .invalidDoc
    else if !asciiOk k then .error .modelGap
    else
      match encVal v with
      | .error e => .error e
      | .ok p =>
        match encElems t with
        | .error e2 => .error e2
        | .ok r => .ok ((p.1 :: cstr k ++ p.2) ++ r)
termination_by structural v => v

def encArrItems : Nat → List BValue → Except PyErr (List Nat)
  | _, [] => .ok []
  | i, x :: t =>
    match encVal x with
    | .error e => .error e
    | .ok p =>
      match encArrItems (i + 1) t with
      | .error e2 => .error e2
      | .ok r => .ok ((p.1 :: cstr (natStr i) ++ p.2) ++ r)
termination_by structural _i v => v
end

/-- One element: tag, cstring key, payload. A NUL byte in a key raises
InvalidDocument as in pymongo; non-ASCII keys are outside the embedding.
Array keys are the decimal strings str(i), which pass both checks, so
encArrItems inlines only the assembly. -/
def encElem (k : String) (v : BValue) : Except PyErr (List Nat) :=
  if k.data.any (fun c => c.toNat = 0) then .error .invalidDoc
  else if !asciiOk k then .error .modelGap
  else
    match encVal v with
    | .error e => .error e
    | .ok p => .ok (p.1 :: cstr k ++ p.2)

/-- bson.encode: a single document; TypeError when the value is not a
mapping. -/
def bsonEncodeDoc : BValue → Except PyErr (List Nat)
  | .obj fs =>
    match encElems fs with
    | .error e => .error e
    | .ok body => .ok (i32le (4 + body.length + 1) ++ body ++ [0])
  | _ => .error .typeErr

/-! ### The decoder (bson.decode_all), fueled -/

mutual
/-- Parse elements up to and including the 0x00 terminator, returning the
fields and the bytes after the terminator. -/
def parseElems : Nat → List Nat → Except PyErr (List (String × BValue) × List Nat)
  | 0, _ => .error .fuelOut
  | f + 1, bs =>
    match bs with
    | [] => .error .invalidBson
    | 0 :: rest => .ok ([], rest)
    | tag :: rest =>
      let kcs := rest.takeWhile (fun b => b ≠ 0)
      if kcs.length = rest.length then .error .invalidBson
      else if kcs.any (fun b => 128 ≤ b) then .error .modelGap
      else
        match parseVal f tag (rest.drop (kcs.length + 1)) with
        | .error e => .error e
        | .ok (v, rest2) =>
          match parseElems f rest2 with
          | .error e => .error e
          | .ok (fsr, rest3) => .ok (((⟨kcs.map Char.ofNat⟩ : String), v) :: fsr, rest3)
termination_by structural f => f

/-- Parse one element payload for a type tag. -/
def parseVal : Nat → Nat → List Nat → Except PyErr (BValue × List Nat)
  | 0, _, _ => .error .fuelOut
  | f + 1, tag, bs =>
    if tag = 10 then .ok (.null, bs)
    else if tag = 8 then
      match bs with
      | 0 :: r => .ok (.bool false, r)
      | 1 :: r => .ok (.bool true, r)
      | _ => .error .invalidBson
    else if tag = 16 then
      match readI32 bs with
      | some (m, r) =>
        .ok (.num (if m < 2147483648 then (m : Int) else (m : Int) - 4294967296), r)
      | none => .error .invalidBson
    else if tag = 18 then
      match readI32 bs with
      | some (lo, r1) =>
        match readI32 r1 with
        | some (hi, r2) =>
          let m := lo + 4294967296 * hi
          .ok (.num (if m < 9223372036854775808 then (m : Int) else (m : Int) - 18446744073709551616), r2)
        | none => .error .invalidBson
      | none => .error .invalidBson
    else if tag = 2 then
      match readI32 bs with
      | some (n, r) =>
        if n = 0 then .error .invalidBson
        else
          let content := r.take n
          if content.length = n ∧ content.getLast? = some 0 then
            let scs := content.take (n - 1)
            if scs.any (fun b => 128 ≤ b) then .error .modelGap
            else .ok (.str ⟨scs.map Char.ofNat⟩, r.drop n)
          else .error .invalidBson
      | none => .error .invalidBson
    else if tag = 5 then
      match readI32 bs with
      | some (n, r) =>
        match r with
        | st :: r2 =>
          if st = 0 then
            let bytes := r2.take n
            if bytes.length = n then .ok (.binary bytes, r2.drop n) else .error .invalidBson
          else .error .modelGap
        | [] => .error .invalidBson
      | none => .error .invalidBson
    else if tag = 7 then
      if 12 ≤ bs.length then .ok (.objectId ⟨bytesToHex (bs.take 12)⟩, bs.drop 12)
      else .error .invalidBson
    else if tag = 17 then
      match readI32 bs with
      | some (i, r1) =>
        match readI32 r1 with
        | some (t, r2) => .ok (.timestamp t i, r2)
        | none => .error .invalidBson
      | none => .error .invalidBson
    else if tag = 3 then
      match parseDocBody f bs with
      | .error e => .error e
      | .ok (fs, rest) =>
        if hasKey fs "$ref" then
          match fs with
          | [("$ref", .str c), ("$id", idv)] => .ok (.dbref c idv, rest)
          | _ => .error .modelGap
        else .ok (.obj fs, rest)
    else if tag = 4 then
      match parseDocBody f bs with
      | .error e => .error e
      | .ok (fs, rest) => .ok (.arr (fs.map Prod.snd), rest)
    else .error .modelGap
termination_by structural f => f

/-- Parse one whole document from the front of the stream: length,
elements, terminator; pymongo checks the size against the remaining bytes
and the final byte. -/
def parseDocBody : Nat → List Nat → Except PyErr (List (String × BValue) × List Nat)
  | 0, _ => .error .fuelOut
  | f + 1, bs =>
    match readI32 bs with
    | none => .error .invalidBson
    | some (n, r) =>
      if n < 5 then .error .invalidBson
      else
        let content := r.take (n - 4)
        if content.length ≠ n - 4 then .error .invalidBson
        else if content.getLast? ≠ some 0 then .error .invalidBson
        else
          match parseElems f content with
          | .error e => .error e
          | .ok (fs, leftover) =>
            if leftover.isEmpty then .ok (fs, r.drop (n - 4))
            else .error .invalidBson
termination_by structural f => f
end

def decodeAllF : Nat → List Nat → Except PyErr (List BValue)
  | 0, _ => .error .fuelOut
  | f + 1, bs =>
    match bs with
    | [] => .ok []
    | _ =>
      match parseDocBody f bs with
      | .error e => .error e
      | .ok (fs, rest) =>
        match decodeAllF f rest with
        | .ok ds => .ok (.obj fs :: ds)
        | .error e => .error e

/-- bson.decode_all on a byte stream. Top-level documents stay plain
mappings; the $ref-to-DBRef rewriting applies to embedded documents only,
as in pymongo. -/
def decodeAll (bs : List Nat) : Except PyErr (List BValue) :=
  decodeAllF (bs.length + 2) bs

/-! ### json_to_bson's write phase -/

/-- What the json_to_bson call leaves behind. The function itself prints
and returns in every case; the observable difference is the output file:
success writes all records, partialOut opened the file and wrote a
prefix before an encode error, caughtNoFile failed in
convert_json_to_bson before the output file was opened. -/
inductive RunOutcome where
  | success (out : List Nat)
  | partialOut (written : List Nat) (e : PyErr)
  | caughtNoFile (e : PyErr)
deriving DecidableEq

def encodeDocsLoop : List BValue → List Nat → RunOutcome
  | [], acc => .success acc
  | d :: t, acc =>
    match bsonEncodeDoc d with
    | .ok bytes => encodeDocsLoop t (acc ++ bytes)
    | .error e => .partialOut acc e

/-- json_to_bson after json.load: convert, then write one record per
document (a list input writes each element back to back, in order). -/
def jsonToBsonRun (data : JValue) : RunOutcome :=
  match convertJsonToBson data with
  | .error e => .caughtNoFile e
  | .ok conv =>
    match conv with
    | .arr ds => encodeDocsLoop ds []
    | d =>
      match bsonEncodeDoc d with
      | .ok bytes => .success bytes
      | .error e => .partialOut [] e

/-! ### Well-formedness for the byte-level round-trip -/

/-- Pairwise-distinct keys (duplicate keys would collapse in the dict
bson.decode_all builds). -/
def nodupKeys : List String → Bool
  | [] => true
  | k :: t => !t.contains k && nodupKeys t

mutual
/-- Documents whose byte encoding the embedded fragment covers and whose
decode_all image is themselves: in-range ints, ASCII strings, valid
lowercase ObjectIds, uint32 timestamps, byte-valued blobs, DBRefs of
well-formed ids, no Decimal128, and plain mappings with distinct
NUL-free keys none of which is the reserved $ref. -/
def wfBson : BValue → Bool
  | .null => true
  | .bool _ => true
  | .num n => decide (-9223372036854775808 ≤ n ∧ n < 9223372036854775808)
  | .str s => asciiOk s
  | .binary bs => bs.all (fun b => decide (b < 256))
  | .objectId s => isOidLower s
  | .dbref c id => asciiOk c && wfBson id
  | .timestamp t i => decide (t < 4294967296) && decide (i < 4294967296)
  | .decimal128 _ => false
  | .arr xs => wfBsonL xs
  | .obj fs => nodupKeys (fs.map Prod.fst) && !hasKey fs "$ref" && wfBsonF fs
termination_by structural v => v

def wfBsonL : List BValue → Bool
  | [] => true
  | x :: t => wfBson x && wfBsonL t
termination_by structural v => v

def wfBsonF : List (String × BValue) → Bool
  | [] => true
  | (k, v) :: t => keyOk k && wfBson v && wfBsonF t
termination_by structural v => v
end

/-! ### Round-trip of the byte-level codec: helper lemmas -/

theorem char_ofNat_toNat (c : Char) (h : c.toNat < 55296) : Char.ofNat c.toNat = c := by
  have hv : Nat.isValidChar c.toNat := Or.inl h
  unfold Char.ofNat
  rw [dif_pos hv]
  unfold Char.ofNatAux
  apply Char.ext
  show UInt32.ofNatCore c.toNat _ = c.val
  unfold UInt32.ofNatCore
  unfold Char.toNat
  rcases c with ⟨⟨⟨v, hlt⟩⟩, hvalid⟩
  congr 1

theorem i32le_length (n : Nat) : (i32le n).length = 4 := rfl

theorem readI32_i32le (n : Nat) (h : n < 4294967296) (rest : List Nat) :
    readI32 (i32le n ++ rest) = some (n, rest) := by
  simp only [i32le, List.cons_append, List.nil_append, readI32]
  congr 2
  omega

theorem takeWhile_append_all {α : Type} {p : α → Bool} (xs ys : List α)
    (h : ∀ x ∈ xs, p x = true) :
    (xs ++ ys).takeWhile p = xs ++ ys.takeWhile p := by
  induction xs with
  | nil => simp
  | cons c t ih =>
    have hc : p c = true := h c (by simp)
    have ht := ih (fun x hx => h x (by simp [hx]))
    simp [List.takeWhile_cons, hc, ht]

theorem asciiBytes_lt128 (s : String) (h : asciiOk s = true) :
    ∀ b ∈ asciiBytes s, b < 128 := by
  intro b hb
  rcases List.mem_map.mp hb with ⟨c, hc, rfl⟩
  have := List.all_eq_true.mp h c hc
  exact decide_eq_true_eq.mp this

theorem map_ofNat_asciiBytes (s : String) (h : asciiOk s = true) :
    (asciiBytes s).map Char.ofNat = s.data := by
  unfold asciiBytes
  rw [List.map_map]
  have hcongr : ∀ c ∈ s.data, (Char.ofNat ∘ Char.toNat) c = id c := by
    intro c hc
    have := decide_eq_true_eq.mp (List.all_eq_true.mp h c hc)
    simp only [Function.comp_apply, id_eq]
    exact char_ofNat_toNat c (by omega)
  rw [List.map_congr_left hcongr, List.map_id]

/-- The key segment of parseElems on an encoded element: the cstring of a
valid key reads back exactly. -/
theorem key_segment (k : String) (hk : keyOk k = true) (rest : List Nat) :
    (asciiBytes k ++ [0] ++ rest).takeWhile (fun b => b ≠ 0) = asciiBytes k := by
  have hall : ∀ b ∈ asciiBytes k, (decide (b ≠ 0)) = true := by
    intro b hb
    rcases List.mem_map.mp hb with ⟨c, hc, rfl⟩
    have := decide_eq_true_eq.mp (List.all_eq_true.mp hk c hc)
    simp
    omega
  rw [List.append_assoc, takeWhile_append_all _ _ hall]
  simp

theorem keyOk_bytes (k : String) (hk : keyOk k = true) : ∀ b ∈ asciiBytes k, 0 < b ∧ b < 128 := by
  intro b hb
  rcases List.mem_map.mp hb with ⟨c, hc, rfl⟩
  exact decide_eq_true_eq.mp (List.all_eq_true.mp hk c hc)

theorem keyOk_ascii (k : String) (hk : keyOk k = true) : asciiOk k = true := by
  rw [asciiOk, List.all_eq_true]
  intro c hc
  have := decide_eq_true_eq.mp (List.all_eq_true.mp hk c hc)
  simp
  omega

/-- int32 round-trip. -/
theorem int32_roundtrip (n : Int) (h1 : -2147483648 ≤ n) (h2 : n < 2147483648)
    (rest : List Nat) :
    readI32 (int32Bytes n ++ rest) =
      some ((n.emod 4294967296).toNat, rest) ∧
    ((if (n.emod 4294967296).toNat < 2147483648 then ((n.emod 4294967296).toNat : Int)
      else ((n.emod 4294967296).toNat : Int) - 4294967296) = n) := by
  have he : n.emod 4294967296 = n % 4294967296 := rfl
  constructor
  · refine readI32_i32le _ ?_ rest
    rw [he]
    omega
  · rw [he]
    split <;> omega

theorem int64Bytes_parts (n : Int) (h1 : -9223372036854775808 ≤ n)
    (h2 : n < 9223372036854775808) :
    ∃ m : Nat, m < 18446744073709551616 ∧
      (n.emod 18446744073709551616).toNat = m ∧
      ((if m < 9223372036854775808 then (m : Int) else (m : Int) - 18446744073709551616) = n) := by
  have he : n.emod 18446744073709551616 = n % 18446744073709551616 := rfl
  refine ⟨(n.emod 18446744073709551616).toNat, by rw [he]; omega, rfl, ?_⟩
  rw [he]
  split <;> omega

/-! Hex digits and ObjectId bytes. -/

theorem toHexChar_hexVal_digit (c : Char)
    (h : (48 ≤ c.toNat ∧ c.toNat ≤ 57) ∨ (97 ≤ c.toNat ∧ c.toNat ≤ 102)) :
    toHexChar (hexVal c) = c ∧ hexVal c < 16 := by
  rcases h with h | h
  · have he : hexVal c = c.toNat - 48 := by
      unfold hexVal
      rw [if_pos h]
    constructor
    · rw [he]
      unfold toHexChar
      rw [if_pos (by omega)]
      have : 48 + (c.toNat - 48) = c.toNat := by omega
      rw [this]
      exact char_ofNat_toNat c (by omega)
    · omega
  · have he : hexVal c = c.toNat - 87 := by
      unfold hexVal
      rw [if_neg (by omega), if_pos h]
    constructor
    · rw [he]
      unfold toHexChar
      rw [if_neg (by omega)]
      have : 87 + (c.toNat - 87) = c.toNat := by omega
      rw [this]
      exact char_ofNat_toNat c (by omega)
    · omega

theorem bytesToHex_hexPairs (cs : List Char)
    (h : ∀ c ∈ cs, (48 ≤ c.toNat ∧ c.toNat ≤ 57) ∨ (97 ≤ c.toNat ∧ c.toNat ≤ 102))
    (heven : cs.length % 2 = 0) :
    bytesToHex (hexPairsToBytes cs) = cs := by
  match cs with
  | [] => rfl
  | [c] => simp at heven
  | c1 :: c2 :: r =>
    have h1 := toHexChar_hexVal_digit c1 (h c1 (by simp))
    have h2 := toHexChar_hexVal_digit c2 (h c2 (by simp))
    have ih := bytesToHex_hexPairs r (fun c hc => h c (by simp [hc])) (by simp at heven ⊢; omega)
    simp only [hexPairsToBytes, bytesToHex, ih]
    have e1 : (hexVal c1 * 16 + hexVal c2) / 16 = hexVal c1 := by omega
    have e2 : (hexVal c1 * 16 + hexVal c2) % 16 = hexVal c2 := by omega
    rw [e1, e2, h1.1, h2.1]

theorem hexPairsToBytes_length (cs : List Char) :
    (hexPairsToBytes cs).length = cs.length / 2 := by
  match cs with
  | [] => rfl
  | [c] => simp [hexPairsToBytes]
  | c1 :: c2 :: r =>
    have ih := hexPairsToBytes_length r
    simp only [hexPairsToBytes, List.length_cons, ih]
    omega

theorem isOidLower_chars (s : String) (h : isOidLower s = true) :
    s.data.length = 24 ∧
    ∀ c ∈ s.data, (48 ≤ c.toNat ∧ c.toNat ≤ 57) ∨ (97 ≤ c.toNat ∧ c.toNat ≤ 102) := by
  unfold isOidLower at h
  rw [Bool.and_eq_true] at h
  refine ⟨by simpa using h.1, ?_⟩
  intro c hc
  have := List.all_eq_true.mp h.2 c hc
  rw [Bool.or_eq_true, decide_eq_true_eq, decide_eq_true_eq] at this
  exact this

theorem oidBytes_length (s : String) (h : isOidLower s = true) :
    (oidBytes s).length = 12 := by
  rw [oidBytes, hexPairsToBytes_length, (isOidLower_chars s h).1]

theorem oid_roundtrip (s : String) (h : isOidLower s = true) :
    (⟨bytesToHex (oidBytes s)⟩ : String) = s := by
  obtain ⟨hlen, hch⟩ := isOidLower_chars s h
  rw [oidBytes, bytesToHex_hexPairs s.data hch (by omega)]

/-! Array keys. -/

theorem natDigitsAux_digits (f n : Nat) :
    ∀ c ∈ natDigitsAux f n, 48 ≤ c.toNat ∧ c.toNat ≤ 57 := by
  induction f generalizing n with
  | zero => simp [natDigitsAux]
  | succ f ih =>
    intro c hc
    unfold natDigitsAux at hc
    split at hc
    · simp at hc
      subst hc
      rename_i hn
      rw [char_toNat_ofNat (48 + n) (by omega)]
      omega
    · rw [List.mem_append] at hc
      rcases hc with hc | hc
      · exact ih (n / 10) c hc
      · simp at hc
        subst hc
        rw [char_toNat_ofNat (48 + n % 10) (by omega)]
        omega

theorem natStr_keyOk (i : Nat) : keyOk (natStr i) = true := by
  rw [keyOk, List.all_eq_true]
  intro c hc
  have := natDigitsAux_digits (i + 1) i c hc
  simp
  omega

/-- The field list the array encoder produces: decimal keys from the given
index, values in order. -/
def enumFields : Nat → List BValue → List (String × BValue)
  | _, [] => []
  | i, x :: t => (natStr i, x) :: enumFields (i + 1) t

theorem enumFields_map_snd (i : Nat) (xs : List BValue) :
    (enumFields i xs).map Prod.snd = xs := by
  induction xs generalizing i with
  | nil => rfl
  | cons x t ih => simp [enumFields, ih]

/-! Fuel accounting for the parser. -/

mutual
def countV : BValue → Nat
  | .dbref _ id => 6 + countV id
  | .arr xs => 2 + countL xs
  | .obj fs => 2 + countF fs
  | _ => 1
termination_by structural v => v

def countL : List BValue → Nat
  | [] => 1
  | x :: t => 1 + countV x + countL t
termination_by structural v => v

def countF : List (String × BValue) → Nat
  | [] => 1
  | (_, v) :: t => 1 + countV v + countF t
termination_by structural v => v
end

mutual
theorem countV_le : ∀ (v : BValue) (tag : Nat) (p : List Nat),
    encVal v = .ok (tag, p) → countV v ≤ p.length + 1
  | .null, tag, p, henc => by
    simp [encVal] at henc
    simp [countV, ← henc.2]
  | .bool b, tag, p, henc => by
    simp [encVal] at henc
    simp [countV, ← henc.2]
  | .num n, tag, p, henc => by
    simp only [encVal] at henc
    split at henc
    · simp at henc
      simp [countV, ← henc.2, int32Bytes, i32le]
    · split at henc
      · simp at henc
        simp [countV, ← henc.2, int64Bytes, i32le]
      · simp at henc
  | .str s, tag, p, henc => by
    simp only [encVal] at henc
    split at henc
    · simp at henc
      simp [countV, ← henc.2]
    · simp at henc
  | .binary bs, tag, p, henc => by
    simp [encVal] at henc
    simp [countV, ← henc.2]
  | .objectId s, tag, p, henc => by
    simp [encVal] at henc
    simp [countV, ← henc.2]
  | .timestamp t i, tag, p, henc => by
    simp [encVal] at henc
    simp [countV, ← henc.2]
  | .dbref c id, tag, p, henc => by
    simp only [encVal] at henc
    split at henc
    · exact absurd henc (by simp)
    · rename_i idTag idp heq
      split at henc
      · simp at henc
        have ih := countV_le id idTag idp heq
        simp only [countV, ← henc.2]
        simp [cstr, asciiBytes, i32le]
        omega
      · exact absurd henc (by simp)
  | .decimal128 s, tag, p, henc => by
    simp [encVal] at henc
  | .arr xs, tag, p, henc => by
    simp only [encVal] at henc
    split at henc
    · exact absurd henc (by simp)
    · rename_i body heq
      simp at henc
      have ih := countL_le 0 xs body heq
      simp only [countV, ← henc.2]
      simp [i32le]
      omega
  | .obj fs, tag, p, henc => by
    simp only [encVal] at henc
    split at henc
    · exact absurd henc (by simp)
    · rename_i body heq
      simp at henc
      have ih := countF_le fs body heq
      simp only [countV, ← henc.2]
      simp [i32le]
      omega
termination_by structural v => v

theorem countL_le : ∀ (i : Nat) (xs : List BValue) (e : List Nat),
    encArrItems i xs = .ok e → countL xs ≤ e.length + 1
  | _, [], e, henc => by
    simp [encArrItems] at henc
    simp [countL, ← henc]
  | i, x :: t, e, henc => by
    simp only [encArrItems] at henc
    split at henc
    · exact absurd henc (by simp)
    · rename_i p heq
      split at henc
      · exact absurd henc (by simp)
      · rename_i r heqr
        simp at henc
        have ih1 := countV_le x p.1 p.2 heq
        have ih2 := countL_le (i + 1) t r heqr
        simp only [countL, ← henc]
        simp [cstr, asciiBytes]
        omega
termination_by structural _i v => v

theorem countF_le : ∀ (fs : List (String × BValue)) (e : List Nat),
    encElems fs = .ok e → countF fs ≤ e.length + 1
  | [], e, henc => by
    simp [encElems] at henc
    simp [countF, ← henc]
  | (k, v) :: t, e, henc => by
    simp only [encElems] at henc
    split at henc
    · exact absurd henc (by simp)
    · split at henc
      · exact absurd henc (by simp)
      · split at henc
        · exact absurd henc (by simp)
        · rename_i p heq
          split at henc
          · exact absurd henc (by simp)
          · rename_i r heqr
            simp at henc
            have ih1 := countV_le v p.1 p.2 heq
            have ih2 := countF_le t r heqr
            simp only [countF, ← henc]
            simp [cstr, asciiBytes]
            omega
termination_by structural v => v
end

theorem encVal_tag_pos (v : BValue) (tag : Nat) (p : List Nat)
    (henc : encVal v = .ok (tag, p)) : 0 < tag := by
  cases v <;> simp only [encVal] at henc <;>
    (try split at henc) <;> (try split at henc) <;> simp_all <;> omega


theorem encVal_dbref_shape (c : String) (id : BValue) (tag : Nat) (p : List Nat)
    (henc : encVal (.dbref c id) = .ok (tag, p)) :
    asciiOk c = true ∧ ∃ body, encElems [("$ref", .str c), ("$id", id)] = .ok body ∧ tag = 3 ∧
      p = i32le (4 + body.length + 1) ++ body ++ [0] := by
  have ha1 : asciiOk "$ref" = true := by decide
  have ha2 : asciiOk "$id" = true := by decide
  simp only [encVal] at henc
  split at henc
  · exact absurd henc (by simp)
  · rename_i idTag idp heq
    split at henc
    · rename_i hasc
      simp at henc
      refine ⟨hasc,
        (2 :: cstr "$ref" ++ (i32le (c.data.length + 1) ++ asciiBytes c ++ [0])) ++
          (idTag :: cstr "$id" ++ idp), ?_, henc.1.symm, ?_⟩
      · simp [encElems, encVal, hasc, heq, ha1, ha2]
      · rw [← henc.2]
        simp [cstr, asciiBytes, i32le]
        omega
    · exact absurd henc (by simp)

theorem parseDocBody_step (body : List Nat) (g : Nat) (rest : List Nat)
    (res : List (String × BValue))
    (hlen : body.length + 5 < 4294967296)
    (helems : parseElems g (body ++ [0]) = .ok (res, [])) :
    parseDocBody (g + 1) (i32le (4 + body.length + 1) ++ (body ++ 0 :: rest)) = .ok (res, rest) := by
  simp only [parseDocBody]
  rw [show (body ++ 0 :: rest) = (body ++ [0]) ++ rest by simp]
  rw [readI32_i32le (4 + body.length + 1) (by omega) ((body ++ [0]) ++ rest)]
  simp only []
  rw [if_neg (by omega : ¬ (4 + body.length + 1 < 5))]
  have hsub : 4 + body.length + 1 - 4 = body.length + 1 := by omega
  have hblen : (body ++ [0]).length = body.length + 1 := by simp
  have htake : ((body ++ [0]) ++ rest).take (4 + body.length + 1 - 4) = body ++ [0] := by
    rw [hsub]; exact List.take_left' hblen
  have hdrop : ((body ++ [0]) ++ rest).drop (4 + body.length + 1 - 4) = rest := by
    rw [hsub]; exact List.drop_left' hblen
  rw [htake, hdrop]
  simp [hblen, hsub, List.getLast?_concat, helems]

mutual
theorem parseVal_enc : ∀ (v : BValue) (tag : Nat) (p : List Nat) (f : Nat) (rest : List Nat),
    wfBson v = true → encVal v = .ok (tag, p) → countV v ≤ f → p.length < 4294967296 →
    parseVal f tag (p ++ rest) = .ok (v, rest)
  | .null, tag, p, f, rest, hwf, henc, hf, hlen => by
    simp [encVal] at henc
    obtain ⟨rfl, hp⟩ := henc
    obtain ⟨f', rfl⟩ : ∃ f', f = f' + 1 := ⟨f - 1, by simp [countV] at hf; omega⟩
    simp [parseVal, ← hp]
  | .bool b, tag, p, f, rest, hwf, henc, hf, hlen => by
    simp [encVal] at henc
    obtain ⟨rfl, hp⟩ := henc
    obtain ⟨f', rfl⟩ : ∃ f', f = f' + 1 := ⟨f - 1, by simp [countV] at hf; omega⟩
    cases b <;> simp [parseVal, ← hp]
  | .num n, tag, p, f, rest, hwf, henc, hf, hlen => by
    obtain ⟨f', rfl⟩ : ∃ f', f = f' + 1 := ⟨f - 1, by simp [countV] at hf; omega⟩
    simp only [encVal] at henc
    split at henc
    · rename_i hr
      simp at henc
      obtain ⟨rfl, hp⟩ := henc
      have h32 := int32_roundtrip n (by omega) (by omega) rest
      simp only [parseVal, ← hp]
      norm_num
      rw [h32.1]
      exact congrArg (fun z => Except.ok (BValue.num z, rest)) h32.2
    · split at henc
      · rename_i hr1 hr2
        simp at henc
        obtain ⟨rfl, hp⟩ := henc
        obtain ⟨m, hm1, hm2, hm3⟩ := int64Bytes_parts n (by omega) (by omega)
        simp only [parseVal, ← hp]
        norm_num
        simp only [int64Bytes, hm2, List.append_assoc]
        rw [readI32_i32le (m % 4294967296) (by omega) (i32le (m / 4294967296) ++ rest)]
        simp only []
        rw [readI32_i32le (m / 4294967296) (by omega) rest]
        simp only []
        congr 2
        congr 1
        split <;> split at hm3 <;> omega
      · simp at henc
  | .str s, tag, p, f, rest, hwf, henc, hf, hlen => by
    obtain ⟨f', rfl⟩ : ∃ f', f = f' + 1 := ⟨f - 1, by simp [countV] at hf; omega⟩
    simp only [encVal] at henc
    split at henc
    · rename_i hascii
      simp at henc
      obtain ⟨rfl, hp⟩ := henc
      rw [← hp] at hlen
      simp [i32le, asciiBytes] at hlen
      simp only [parseVal, ← hp]
      norm_num
      rw [readI32_i32le _ (by omega : s.length + 1 < 4294967296)]
      have halen : (asciiBytes s).length = s.length := by simp [asciiBytes]
      have htake : (asciiBytes s ++ 0 :: rest).take (s.length + 1) = asciiBytes s ++ [0] := by
        rw [← halen, List.take_append]
        simp
      have htake2 : (asciiBytes s ++ [0]).take (s.length + 1 - 1) = asciiBytes s := by
        simp only [Nat.add_sub_cancel]
        exact List.take_left' halen
      have hdrop : (asciiBytes s ++ 0 :: rest).drop (s.length + 1) = rest := by
        rw [← halen, List.drop_append]
        simp
      have hne : ¬(s.length + 1 = 0) := by omega
      have hex : ¬ ∃ x ∈ MspBson.asciiBytes s, 128 ≤ x := by
        rintro ⟨x, hx1, hx2⟩
        have := asciiBytes_lt128 s hascii x hx1
        omega
      simp only [htake, htake2, hdrop, List.getLast?_concat, ← List.map_take,
        map_ofNat_asciiBytes s hascii]
      rw [if_neg hne, if_pos (by simp [halen]), if_neg hex]
    · simp at henc
  | .binary bs, tag, p, f, rest, hwf, henc, hf, hlen => by
    obtain ⟨f', rfl⟩ : ∃ f', f = f' + 1 := ⟨f - 1, by simp [countV] at hf; omega⟩
    simp [encVal] at henc
    obtain ⟨rfl, hp⟩ := henc
    rw [← hp] at hlen
    simp [i32le] at hlen
    simp only [parseVal, ← hp]
    norm_num
    rw [readI32_i32le bs.length (by omega) (0 :: (bs ++ rest))]
    have htake : (bs ++ rest).take bs.length = bs := List.take_left bs rest
    have hdrop : (bs ++ rest).drop bs.length = rest := List.drop_left bs rest
    simp [htake, hdrop]
  | .objectId s, tag, p, f, rest, hwf, henc, hf, hlen => by
    obtain ⟨f', rfl⟩ : ∃ f', f = f' + 1 := ⟨f - 1, by simp [countV] at hf; omega⟩
    simp [encVal] at henc
    obtain ⟨rfl, hp⟩ := henc
    have hwf2 : isOidLower s = true := by simpa [wfBson] using hwf
    have h12 : (oidBytes s).length = 12 := oidBytes_length s hwf2
    simp only [parseVal, ← hp]
    norm_num
    have htake : (oidBytes s ++ rest).take 12 = oidBytes s := List.take_left' h12
    have hdrop : (oidBytes s ++ rest).drop 12 = rest := List.drop_left' h12
    rw [if_pos (by rw [h12]; omega : 12 ≤ (oidBytes s).length + rest.length)]
    rw [htake, hdrop, oid_roundtrip s hwf2]
  | .timestamp t i, tag, p, f, rest, hwf, henc, hf, hlen => by
    obtain ⟨f', rfl⟩ : ∃ f', f = f' + 1 := ⟨f - 1, by simp [countV] at hf; omega⟩
    simp [encVal] at henc
    obtain ⟨rfl, hp⟩ := henc
    have hwf2 : t < 4294967296 ∧ i < 4294967296 := by
      simp [wfBson] at hwf
      exact hwf
    simp only [parseVal, ← hp]
    norm_num
    rw [readI32_i32le i (by omega) (i32le t ++ rest)]
    simp only []
    rw [readI32_i32le t (by omega) rest]
  | .dbref c id, tag, p, f, rest, hwf, henc, hf, hlen => by
    obtain ⟨hasc, body, hband, rfl, hp⟩ := encVal_dbref_shape c id tag p henc
    have hid : wfBson id = true := by
      simp [wfBson, Bool.and_eq_true] at hwf
      exact hwf.2
    have hwfpair : wfBsonF [("$ref", .str c), ("$id", id)] = true := by
      simp [wfBsonF, wfBson, keyOk, hasc, hid]
    have hcpair : countF [("$ref", .str c), ("$id", id)] = 4 + countV id := by
      simp only [countF, countV]
      omega
    have hcv : countV (.dbref c id) = 6 + countV id := by simp [countV]
    obtain ⟨f', rfl⟩ : ∃ f', f = f' + 1 := ⟨f - 1, by rw [hcv] at hf; omega⟩
    obtain ⟨g, rfl⟩ : ∃ g, f' = g + 1 := ⟨f' - 1, by rw [hcv] at hf; omega⟩
    rw [hp] at hlen
    simp [i32le] at hlen
    rw [hp]
    simp only [parseVal]
    norm_num
    have helems := parseElems_enc [("$ref", .str c), ("$id", id)] body g [] hwfpair hband
      (by rw [hcpair]; rw [hcv] at hf; omega) (by omega)
    rw [parseDocBody_step body g rest [("$ref", .str c), ("$id", id)] (by omega) helems]
    simp [hasKey]
  | .decimal128 s, tag, p, f, rest, hwf, henc, hf, hlen => by simp [encVal] at henc
  | .arr xs, tag, p, f, rest, hwf, henc, hf, hlen => by
    simp only [encVal] at henc
    split at henc
    · exact absurd henc (by simp)
    · rename_i body heq
      simp at henc
      obtain ⟨rfl, hp⟩ := henc
      have hL : wfBsonL xs = true := by simpa [wfBson] using hwf
      have hcv : countV (.arr xs) = 2 + countL xs := by simp [countV]
      obtain ⟨f', rfl⟩ : ∃ f', f = f' + 1 := ⟨f - 1, by rw [hcv] at hf; omega⟩
      obtain ⟨g, rfl⟩ : ∃ g, f' = g + 1 := ⟨f' - 1, by rw [hcv] at hf; omega⟩
      rw [← hp] at hlen
      simp [i32le] at hlen
      simp only [parseVal, ← hp]
      norm_num
      have helems := parseArr_enc 0 xs body g [] hL heq (by rw [hcv] at hf; omega) (by omega)
      rw [parseDocBody_step body g rest (enumFields 0 xs) (by omega) helems]
      simp [enumFields_map_snd]
  | .obj fs, tag, p, f, rest, hwf, henc, hf, hlen => by
    simp only [encVal] at henc
    split at henc
    · exact absurd henc (by simp)
    · rename_i body heq
      simp at henc
      obtain ⟨rfl, hp⟩ := henc
      simp only [wfBson, Bool.and_eq_true] at hwf
      obtain ⟨⟨hnd, hnr⟩, hF⟩ := hwf
      have hcv : countV (.obj fs) = 2 + countF fs := by simp [countV]
      obtain ⟨f', rfl⟩ : ∃ f', f = f' + 1 := ⟨f - 1, by rw [hcv] at hf; omega⟩
      obtain ⟨g, rfl⟩ : ∃ g, f' = g + 1 := ⟨f' - 1, by rw [hcv] at hf; omega⟩
      rw [← hp] at hlen
      simp [i32le] at hlen
      simp only [parseVal, ← hp]
      norm_num
      have helems := parseElems_enc fs body g [] hF heq (by rw [hcv] at hf; omega) (by omega)
      rw [parseDocBody_step body g rest fs (by omega) helems]
      have hkr : hasKey fs "$ref" = false := by simpa using hnr
      simp [hkr]
termination_by v => countV v

theorem parseElems_enc : ∀ (fs : List (String × BValue)) (e : List Nat) (f : Nat) (rest : List Nat),
    wfBsonF fs = true → encElems fs = .ok e → countF fs ≤ f → e.length < 4294967296 →
    parseElems f (e ++ 0 :: rest) = .ok (fs, rest)
  | [], e, f, rest, hwf, henc, hf, hlen => by
    simp [encElems] at henc
    subst henc
    obtain ⟨f', rfl⟩ : ∃ f', f = f' + 1 := ⟨f - 1, by simp [countF] at hf; omega⟩
    simp [parseElems]
  | (k, v) :: t, e, f, rest, hwf, henc, hf, hlen => by
    simp only [wfBsonF, Bool.and_eq_true] at hwf
    obtain ⟨⟨hk, hv⟩, ht⟩ := hwf
    have hnul : ¬(k.data.any (fun c => c.toNat = 0) = true) := by
      intro hx
      simp only [List.any_eq_true] at hx
      obtain ⟨c, hc1, hc2⟩ := hx
      have := decide_eq_true_eq.mp (List.all_eq_true.mp hk c hc1)
      simp at hc2
      omega
    have hasc : ¬((!asciiOk k) = true) := by simp [keyOk_ascii k hk]
    simp only [encElems] at henc
    rw [if_neg hnul, if_neg hasc] at henc
    split at henc
    · exact absurd henc (by simp)
    · rename_i p heq
      split at henc
      · exact absurd henc (by simp)
      · rename_i r heqr
        simp only [Except.ok.injEq] at henc
        subst henc
        have hcf : countF ((k, v) :: t) = 1 + countV v + countF t := by simp [countF]
        obtain ⟨f', rfl⟩ : ∃ f', f = f' + 1 := ⟨f - 1, by rw [hcf] at hf; omega⟩
        obtain ⟨tg, htg⟩ : ∃ tg, p.1 = tg + 1 :=
          ⟨p.1 - 1, by have := encVal_tag_pos v p.1 p.2 (by rw [heq]); omega⟩
        have hcv1 := countV_le v p.1 p.2 (by rw [heq])
        have hcf1 := countF_le t r heqr
        have hstream : (((p.1 :: cstr k ++ p.2) ++ r) ++ 0 :: rest : List Nat) =
            p.1 :: ((asciiBytes k ++ [0]) ++ (p.2 ++ (r ++ 0 :: rest))) := by
          simp [cstr]
        rw [hstream, htg]
        simp only [parseElems]
        rw [key_segment k hk (p.2 ++ (r ++ 0 :: rest))]
        have hklen : (asciiBytes k).length = k.length := by simp [asciiBytes]
        have hlen_ne : ¬ ((asciiBytes k).length =
            ((asciiBytes k ++ [0]) ++ (p.2 ++ (r ++ 0 :: rest))).length) := by
          simp only [List.length_append, List.length_cons]
          omega
        rw [if_neg hlen_ne]
        have hany : ¬((asciiBytes k).any (fun b => 128 ≤ b) = true) := by
          intro hx
          simp only [List.any_eq_true] at hx
          obtain ⟨b, hb1, hb2⟩ := hx
          have := keyOk_bytes k hk b hb1
          simp at hb2
          omega
        rw [if_neg hany]
        have hdrop : (((asciiBytes k ++ [0]) ++ (p.2 ++ (r ++ 0 :: rest))) : List Nat).drop
            ((asciiBytes k).length + 1) = p.2 ++ (r ++ 0 :: rest) :=
          List.drop_left' (by simp)
        rw [hdrop]
        have hv1 := parseVal_enc v p.1 p.2 f' (r ++ 0 :: rest) hv (by rw [heq])
          (by rw [hcf] at hf; omega) (by simp [cstr] at hlen; omega)
        rw [htg] at hv1
        have ht1 := parseElems_enc t r f' rest ht heqr
          (by rw [hcf] at hf; omega) (by simp [cstr] at hlen; omega)
        simp [hv1, ht1, map_ofNat_asciiBytes k (keyOk_ascii k hk)]
termination_by fs => countF fs

theorem parseArr_enc : ∀ (i : Nat) (xs : List BValue) (e : List Nat) (f : Nat) (rest : List Nat),
    wfBsonL xs = true → encArrItems i xs = .ok e → countL xs ≤ f → e.length < 4294967296 →
    parseElems f (e ++ 0 :: rest) = .ok (enumFields i xs, rest)
  | i, [], e, f, rest, hwf, henc, hf, hlen => by
    simp [encArrItems] at henc
    subst henc
    obtain ⟨f', rfl⟩ : ∃ f', f = f' + 1 := ⟨f - 1, by simp [countL] at hf; omega⟩
    simp [parseElems, enumFields]
  | i, x :: t, e, f, rest, hwf, henc, hf, hlen => by
    simp only [wfBsonL, Bool.and_eq_true] at hwf
    obtain ⟨hx, ht⟩ := hwf
    have hk : keyOk (natStr i) = true := natStr_keyOk i
    simp only [encArrItems] at henc
    split at henc
    · exact absurd henc (by simp)
    · rename_i p heq
      split at henc
      · exact absurd henc (by simp)
      · rename_i r heqr
        simp only [Except.ok.injEq] at henc
        subst henc
        have hcl : countL (x :: t) = 1 + countV x + countL t := by simp [countL]
        obtain ⟨f', rfl⟩ : ∃ f', f = f' + 1 := ⟨f - 1, by rw [hcl] at hf; omega⟩
        obtain ⟨tg, htg⟩ : ∃ tg, p.1 = tg + 1 :=
          ⟨p.1 - 1, by have := encVal_tag_pos x p.1 p.2 (by rw [heq]); omega⟩
        have hstream : (((p.1 :: cstr (natStr i) ++ p.2) ++ r) ++ 0 :: rest : List Nat) =
            p.1 :: ((asciiBytes (natStr i) ++ [0]) ++ (p.2 ++ (r ++ 0 :: rest))) := by
          simp [cstr]
        rw [hstream, htg]
        simp only [parseElems]
        rw [key_segment (natStr i) hk (p.2 ++ (r ++ 0 :: rest))]
        have hlen_ne : ¬ ((asciiBytes (natStr i)).length =
            ((asciiBytes (natStr i) ++ [0]) ++ (p.2 ++ (r ++ 0 :: rest))).length) := by
          simp only [List.length_append, List.length_cons]
          omega
        rw [if_neg hlen_ne]
        have hany : ¬((asciiBytes (natStr i)).any (fun b => 128 ≤ b) = true) := by
          intro hx2
          simp only [List.any_eq_true] at hx2
          obtain ⟨b, hb1, hb2⟩ := hx2
          have := keyOk_bytes (natStr i) hk b hb1
          simp at hb2
          omega
        rw [if_neg hany]
        have hdrop : (((asciiBytes (natStr i) ++ [0]) ++ (p.2 ++ (r ++ 0 :: rest))) : List Nat).drop
            ((asciiBytes (natStr i)).length + 1) = p.2 ++ (r ++ 0 :: rest) :=
          List.drop_left' (by simp)
        rw [hdrop]
        have hv1 := parseVal_enc x p.1 p.2 f' (r ++ 0 :: rest) hx (by rw [heq])
          (by rw [hcl] at hf; omega) (by simp [cstr] at hlen; omega)
        rw [htg] at hv1
        have ht1 := parseArr_enc (i + 1) t r f' rest ht heqr
          (by rw [hcl] at hf; omega) (by simp [cstr] at hlen; omega)
        simp [hv1, ht1, enumFields, map_ofNat_asciiBytes (natStr i) (keyOk_ascii (natStr i) hk)]
termination_by i xs => countL xs
end


/-! ### decode_all on concatenated encoded documents -/

theorem encodeDocsLoop_success (cs : List BValue) (outs : List (List Nat)) (acc : List Nat)
    (h : List.Forall₂ (fun d o => bsonEncodeDoc d = .ok o) cs outs) :
    encodeDocsLoop cs acc = .success (acc ++ outs.flatten) := by
  induction h generalizing acc with
  | nil => simp [encodeDocsLoop]
  | cons hd tl ih =>
    rename_i d o cs' outs'
    simp only [encodeDocsLoop, hd]
    rw [ih (acc ++ o)]
    simp

theorem bsonEncodeDoc_shape (fs : List (String × BValue)) (e : List Nat)
    (henc : bsonEncodeDoc (.obj fs) = .ok e) :
    ∃ body, encElems fs = .ok body ∧ e = i32le (4 + body.length + 1) ++ (body ++ [0]) := by
  simp only [bsonEncodeDoc] at henc
  split at henc
  · exact absurd henc (by simp)
  · rename_i body heq
    simp at henc
    exact ⟨body, heq, by rw [← henc]⟩

/-- One document step of decode_all on a stream beginning with an encoded
document. -/
theorem decodeAllF_step (fs : List (String × BValue)) (body : List Nat) (g : Nat)
    (rest : List Nat)
    (hlen : body.length + 5 < 4294967296)
    (helems : parseElems g (body ++ [0]) = .ok (fs, [])) :
    decodeAllF (g + 2) ((i32le (4 + body.length + 1) ++ (body ++ [0])) ++ rest) =
      (match decodeAllF (g + 1) rest with
       | .ok ds => .ok (.obj fs :: ds)
       | .error e => .error e) := by
  have hshape : (i32le (4 + body.length + 1) ++ (body ++ [0])) ++ rest =
      i32le (4 + body.length + 1) ++ (body ++ 0 :: rest) := by simp
  have hcons : i32le (4 + body.length + 1) ++ (body ++ 0 :: rest) =
      ((4 + body.length + 1) % 256) :: ((4 + body.length + 1) / 256 % 256 ::
        ((4 + body.length + 1) / 65536 % 256 :: ((4 + body.length + 1) / 16777216 % 256 ::
          (body ++ 0 :: rest)))) := by simp [i32le]
  rw [hshape]
  simp only [decodeAllF]
  rw [hcons]
  simp only []
  rw [← hcons]
  rw [parseDocBody_step body g rest fs (by omega) helems]

/-- A stream of three encoded documents decodes to exactly those three
documents. -/
theorem decodeAll_three (fs1 fs2 fs3 : List (String × BValue)) (e1 e2 e3 : List Nat)
    (hw1 : wfBsonF fs1 = true) (hw2 : wfBsonF fs2 = true) (hw3 : wfBsonF fs3 = true)
    (he1 : bsonEncodeDoc (.obj fs1) = .ok e1) (he2 : bsonEncodeDoc (.obj fs2) = .ok e2)
    (he3 : bsonEncodeDoc (.obj fs3) = .ok e3)
    (hl : e1.length + e2.length + e3.length + 9 < 4294967296) :
    decodeAll (e1 ++ e2 ++ e3) = .ok [.obj fs1, .obj fs2, .obj fs3] := by
  obtain ⟨b1, hb1, rfl⟩ := bsonEncodeDoc_shape fs1 e1 he1
  obtain ⟨b2, hb2, rfl⟩ := bsonEncodeDoc_shape fs2 e2 he2
  obtain ⟨b3, hb3, rfl⟩ := bsonEncodeDoc_shape fs3 e3 he3
  have hc1 := countF_le fs1 b1 hb1
  have hc2 := countF_le fs2 b2 hb2
  have hc3 := countF_le fs3 b3 hb3
  simp only [List.length_append, i32le_length, List.length_cons, List.length_nil] at hl
  unfold decodeAll
  simp only [List.length_append, i32le_length, List.length_cons, List.length_nil]
  have hL : (4 + (b1.length + (0 + 1)) + (4 + (b2.length + (0 + 1))) + (4 + (b3.length + (0 + 1)))) + 2
      = (b1.length + b2.length + b3.length + 15) + 2 := by omega
  rw [List.append_assoc]
  have helems1 := parseElems_enc fs1 b1 (b1.length + b2.length + b3.length + 15) []
    hw1 hb1 (by omega) (by omega)
  have helems2 := parseElems_enc fs2 b2 (b1.length + b2.length + b3.length + 14) []
    hw2 hb2 (by omega) (by omega)
  have helems3 := parseElems_enc fs3 b3 (b1.length + b2.length + b3.length + 13) []
    hw3 hb3 (by omega) (by omega)
  have hstep1 := decodeAllF_step fs1 b1 (b1.length + b2.length + b3.length + 15)
    ((i32le (4 + b2.length + 1) ++ (b2 ++ [0])) ++ (i32le (4 + b3.length + 1) ++ (b3 ++ [0])))
    (by omega) helems1
  have hstep2 := decodeAllF_step fs2 b2 (b1.length + b2.length + b3.length + 14)
    (i32le (4 + b3.length + 1) ++ (b3 ++ [0]))
    (by omega) helems2
  have hstep3 := decodeAllF_step fs3 b3 (b1.length + b2.length + b3.length + 13)
    [] (by omega) helems3
  rw [hL, hstep1]
  have hf2 : (b1.length + b2.length + b3.length + 15) + 1 =
      (b1.length + b2.length + b3.length + 14) + 2 := by omega
  rw [hf2, hstep2]
  have hf3 : (b1.length + b2.length + b3.length + 14) + 1 =
      (b1.length + b2.length + b3.length + 13) + 2 := by omega
  rw [show (i32le (4 + b3.length + 1) ++ (b3 ++ [0])) =
      (i32le (4 + b3.length + 1) ++ (b3 ++ [0])) ++ [] from (List.append_nil _).symm]
  rw [hf3, hstep3]
  simp [decodeAllF]

/-! ### Helpers for the claim statements -/

theorem encodeBsonList_eq_map (xs : List BValue) : encodeBsonList xs = xs.map encodeBson := by
  induction xs with
  | nil => rfl
  | cons x t ih => simp [encodeBsonList, ih]

theorem encodeBsonFields_eq_map (fs : List (String × BValue)) :
    encodeBsonFields fs = fs.map (fun p => (p.1, encodeBson p.2)) := by
  induction fs with
  | nil => rfl
  | cons p t ih => cases p; simp [encodeBsonFields, ih]

theorem string_data_append (s t : String) : (s ++ t).data = s.data ++ t.data := rfl

theorem isPrefixOf_self_append (l y : List Char) : l.isPrefixOf (l ++ y) = true := by
  induction l with
  | nil => simp [List.isPrefixOf]
  | cons c t ih => simp [List.isPrefixOf, ih]

theorem splitChar_no_sep (sep : Char) (cs : List Char) (h : ∀ c ∈ cs, c ≠ sep) :
    splitChar sep cs = [cs] := by
  induction cs with
  | nil => rfl
  | cons c t ih =>
    have hc : c ≠ sep := h c (by simp)
    have ht := ih (fun x hx => h x (by simp [hx]))
    simp [splitChar, hc, ht]

theorem b64encodeL_no_colon (bs : List Nat) (h : ∀ b ∈ bs, b < 256) :
    ∀ c ∈ b64encodeL bs, c ≠ ':' := by
  intro c hc
  unfold b64encodeL at hc
  rw [List.mem_append] at hc
  rcases hc with hc | hc
  · rcases List.mem_map.mp hc with ⟨x, hx, rfl⟩
    exact b64chr_ne_colon x (sixbits_lt64 bs h x hx)
  · rw [List.eq_of_mem_replicate hc]
    decide

/-- Empty needle: Python reports the empty string as a substring of
everything. -/
theorem listHasSub_nil (hay : List Char) : listHasSub [] hay = true := by
  induction hay with
  | nil => rfl
  | cons c t ih => simp [listHasSub, List.isPrefixOf, ih]

/-- Elements in the shape the filter claims speak about: a mapping whose
AssetName field, when present, is a string. -/
def elemShapeOk : JValue → Bool
  | .obj efs =>
    match lookupKey efs "AssetName" with
    | none => true
    | some (.str _) => true
    | some _ => false
  | _ => false

/-- The keep-condition exactly as the spec words it: the AssetName string
(empty when the field is missing) does not contain the filter substring,
and InventoryId is absent or null. -/
def specKeep (key : String) : JValue → Bool
  | .obj efs =>
    !(strHasSub (match lookupKey efs "AssetName" with | some (.str a) => a | _ => "") key) &&
    (match lookupKey efs "InventoryId" with
     | none => true
     | some .null => true
     | some _ => false)
  | _ => false

theorem keepElem_eq_specKeep (key : String) (e : JValue) (h : elemShapeOk e = true) :
    keepElem key e = .ok (specKeep key e) := by
  cases e with
  | obj efs =>
    simp only [elemShapeOk] at h
    simp only [keepElem, specKeep, lookupKeyD]
    cases hl : lookupKey efs "AssetName" with
    | none =>
      simp only [hl, Option.getD, pyInStr]
      cases hs : strHasSub "" key
      · cases hi : lookupKey efs "InventoryId" with
        | none => simp [hs]
        | some iv => cases iv <;> simp [hs]
      · simp [hs]
    | some av =>
      rw [hl] at h
      cases av with
      | str a =>
        simp only [hl, Option.getD, pyInStr]
        cases hs : strHasSub a key
        · cases hi : lookupKey efs "InventoryId" with
          | none => simp [hs]
          | some iv => cases iv <;> simp [hs]
        · simp [hs]
      | null => simp at h
      | bool b => simp at h
      | num n => simp at h
      | arr xs => simp at h
      | obj fs2 => simp at h
  | null => simp [elemShapeOk] at h
  | bool b => simp [elemShapeOk] at h
  | num n => simp [elemShapeOk] at h
  | str s => simp [elemShapeOk] at h
  | arr xs => simp [elemShapeOk] at h

theorem filterElements_eq_filter (key : String) (elems : List JValue)
    (h : elems.all elemShapeOk = true) :
    filterElements key elems = .ok (elems.filter (specKeep key)) := by
  induction elems with
  | nil => rfl
  | cons e t ih =>
    rw [List.all_cons, Bool.and_eq_true] at h
    have he := keepElem_eq_specKeep key e h.1
    have ht := ih h.2
    unfold filterElements
    rw [he, ht]
    cases hk : specKeep key e <;> simp [List.filter_cons, hk]

theorem specKeep_empty_key (e : JValue) (h : elemShapeOk e = true) :
    specKeep "" e = false := by
  cases e with
  | obj efs =>
    unfold specKeep
    have hsub : ∀ a : String, strHasSub a "" = true := by
      intro a
      unfold strHasSub
      exact listHasSub_nil a.data
    cases hl : lookupKey efs "AssetName" with
    | none => simp [hsub]
    | some av => cases av <;> simp [hsub]
  | null => rfl
  | bool b => rfl
  | num n => rfl
  | str s => rfl
  | arr xs => rfl

/-! ## Shared helpers for the claim proofs -/

theorem hasKey_of_lookupKey {α : Type} (fs : List (String × α)) (k : String) (v : α)
    (h : lookupKey fs k = some v) : hasKey fs k = true := by
  induction fs with
  | nil => simp [lookupKey] at h
  | cons p t ih =>
    simp only [lookupKey] at h
    simp only [hasKey, List.any_cons, Bool.or_eq_true]
    cases hp : (p.1 == k)
    · rw [hp] at h
      simp only [Bool.false_eq_true, if_false] at h
      exact Or.inr (ih h)
    · exact Or.inl rfl

theorem splitChar_prefix (sep : Char) (pre p : List Char)
    (hpre : ∀ c ∈ pre, c ≠ sep) (hp : ∀ c ∈ p, c ≠ sep) :
    splitChar sep (pre ++ sep :: p) = [pre, p] := by
  induction pre with
  | nil =>
    simp [splitChar, splitChar_no_sep sep p hp]
  | cons c t ih =>
    have hc : c ≠ sep := hpre c (by simp)
    have ht := ih (fun x hx => hpre x (by simp [hx]))
    simp only [List.cons_append, splitChar, if_neg hc, List.append_eq]
    rw [ht]

/-! # The ten claims -/

/-- Claim C1 (amended): decoding the tagged-JSON encoding of a binary-native
document D is the identity for every well-formed D — blob bytes bytes,
ObjectId strings in the canonical 24-lowercase-hex form str() emits, DBRef
ids themselves ObjectIds, timestamp fields in uint32 range, plain strings
not starting with the reserved "$binary:" marker, and plain mappings free of
reserved tag keys. Blob bytes, decimal strings and timestamp fields are
preserved exactly. -/
theorem claim_C1_roundtrip (v : BValue) (h : wfRT v = true) :
    convertJsonToBson (encodeBson v) = .ok v :=
  roundTripB v h

/-- Document with every tagged special value, for the C1 witness. -/
def c1Doc : BValue :=
  .obj [("a", .binary [0, 255, 66]),
        ("b", .objectId "0123456789abcdef01234567"),
        ("c", .dbref "items" (.objectId "a1b2c3d4e5f60718293a4b5c")),
        ("d", .timestamp 1700000000 7),
        ("e", .decimal128 "1.50"),
        ("f", .arr [.null, .bool true, .num (-3), .str "hi"])]

theorem claim_C1_witness :
    wfRT c1Doc = true ∧ convertJsonToBson (encodeBson c1Doc) = .ok c1Doc :=
  ⟨by decide, claim_C1_roundtrip c1Doc (by decide)⟩

/-- Counterexample to C1 as stated: a document reference whose id is the
plain string "user42" is a binary-native document containing only tagged
special values, its encoding stringifies the id, and decoding that encoding
raises InvalidId instead of returning the document. -/
theorem claim_C1_counterexample :
    convertJsonToBson (encodeBson (.dbref "c" (.str "user42"))) = .error .invalidId ∧
    convertJsonToBson (encodeBson (.dbref "c" (.str "user42"))) ≠
      .ok (.dbref "c" (.str "user42")) := by
  refine ⟨rfl, fun h => ?_⟩
  have h1 : convertJsonToBson (encodeBson (.dbref "c" (.str "user42"))) =
      Except.error PyErr.invalidId := rfl
  rw [h1] at h
  exact Except.noConfusion h

/-! Claim C2 inputs: one Content node with garbage base64 ("AAAAA" has a
data-character count of 1 mod 4, so base64.b64decode raises
binascii.Error, which the except clause of process_json does not catch),
and one Content node with a valid payload. -/

def c2PetElem : JValue := .obj [("AssetName", .str "red_pet_hat"), ("InventoryId", .null)]

def c2GreenElem : JValue := .obj [("AssetName", .str "green_hat"), ("InventoryId", .null)]

def c2GoodPayload : String :=
  b64encode (utf8Encode (jsonDumps (.obj [("Elements", .arr [c2PetElem, c2GreenElem])])))

def c2GoodNode : JValue := .obj [("Content", .obj [("$binary", .str c2GoodPayload)])]

def c2BadNode : JValue := .obj [("Content", .obj [("$binary", .str "AAAAA")])]

def c2FilteredPayload : String :=
  b64encode (utf8Encode (jsonDumps (.obj [("Elements", .arr [c2GreenElem])])))

set_option maxRecDepth 100000 in
set_option maxHeartbeats 2000000 in
/-- Claim C2, refuting evidence: a document whose first Content node holds
garbage base64 makes the whole filtering pass raise binascii.Error — the
valid second node is never processed and nothing is written — although
processing the valid node alone succeeds and rewrites its payload. The
except clause catches only json.JSONDecodeError and TypeError, and
binascii.Error is a ValueError, so bad base64 escapes process_json. -/
theorem claim_C2_isolation_bug :
    processJson "pet" (.obj [("a", c2BadNode), ("b", c2GoodNode)]) =
      .error .binasciiErr ∧
    processJson "pet" (.obj [("b", c2GoodNode)]) =
      .ok (.obj [("b", .obj [("Content", .obj [("$binary", .str c2FilteredPayload)])])]) :=
  ⟨rfl, rfl⟩

/-- Claim C3: the filter comprehension of process_json keeps exactly the
elements whose AssetName (the empty string when the field is missing) does
not contain the filter substring and whose InventoryId is absent or null,
for every element list in the shape the claim speaks about (AssetName
absent or a string). -/
theorem claim_C3_filter_predicate (key : String) (elems : List JValue)
    (h : elems.all elemShapeOk = true) :
    filterElements key elems = .ok (elems.filter (specKeep key)) :=
  filterElements_eq_filter key elems h

/-- Elements sequence of the spec's worked example. -/
def c3Elems : List JValue :=
  [.obj [("AssetName", .str "red_pet_hat"), ("InventoryId", .null)],
   .obj [("AssetName", .str "blue_hat"), ("InventoryId", .str "abc")],
   .obj [("AssetName", .str "green_hat"), ("InventoryId", .null)]]

theorem claim_C3_witness :
    c3Elems.all elemShapeOk = true ∧
    filterElements "pet" c3Elems =
      .ok [.obj [("AssetName", .str "green_hat"), ("InventoryId", .null)]] ∧
    filterElements "pet" [(.obj [] : JValue)] = .ok [(.obj [] : JValue)] := by
  refine ⟨by decide, ?_, ?_⟩
  · rw [claim_C3_filter_predicate "pet" c3Elems (by decide)]
    rfl
  · rw [claim_C3_filter_predicate "pet" [(.obj [] : JValue)] (by decide)]
    rfl

/-- Claim C4: the decoder tests a mapping's tag keys in the fixed order
$binary, $oid, $ref with $id, $timestamp, $numberDecimal, the first
match winning, and recurses field-by-field when none matches. Each conjunct
states one step of the chain under the failure of the earlier guards; the
$binary rule fires whatever other keys (such as $oid) are present. -/
theorem claim_C4_tag_precedence :
    (∀ (fs : List (String × JValue)) (s : String) (bs : List Nat),
      lookupKey fs "$binary" = some (.str s) → b64decode s = some bs →
      convertJsonToBson (.obj fs) = .ok (.binary bs)) ∧
    (∀ fs : List (String × JValue), hasKey fs "$binary" = false →
      hasKey fs "$oid" = true →
      convertJsonToBson (.obj fs) = objectIdOf ((lookupKey fs "$oid").getD .null)) ∧
    (∀ (fs : List (String × JValue)) (c s : String),
      hasKey fs "$binary" = false → hasKey fs "$oid" = false →
      lookupKey fs "$ref" = some (.str c) → lookupKey fs "$id" = some (.str s) →
      isOidStr s = true →
      convertJsonToBson (.obj fs) = .ok (.dbref c (.objectId (pyLower s)))) ∧
    (∀ (fs : List (String × JValue)) (t i : Int),
      hasKey fs "$binary" = false → hasKey fs "$oid" = false →
      (hasKey fs "$ref" && hasKey fs "$id") = false →
      lookupKey fs "$timestamp" = some (.obj [("t", .num t), ("i", .num i)]) →
      0 ≤ t → t < 4294967296 → 0 ≤ i → i < 4294967296 →
      convertJsonToBson (.obj fs) = .ok (.timestamp t.toNat i.toNat)) ∧
    (∀ (fs : List (String × JValue)) (s : String),
      hasKey fs "$binary" = false → hasKey fs "$oid" = false →
      (hasKey fs "$ref" && hasKey fs "$id") = false → hasKey fs "$timestamp" = false →
      lookupKey fs "$numberDecimal" = some (.str s) →
      convertJsonToBson (.obj fs) = .ok (.decimal128 s)) ∧
    (∀ fs : List (String × JValue), noTagKeys fs = true →
      convertJsonToBson (.obj fs) = (convertFields fs).map BValue.obj) := by
  refine ⟨?_, ?_, ?_, ?_, ?_, ?_⟩
  · intro fs s bs hl hb
    have hk := hasKey_of_lookupKey fs "$binary" _ hl
    simp only [convertJsonToBson]
    rw [if_pos hk, hl]
    simp [hb]
  · intro fs h1 h2
    simp only [convertJsonToBson]
    rw [if_neg (by simp [h1]), if_pos h2]
  · intro fs c s h1 h2 hlr hli hs
    have h3 := hasKey_of_lookupKey fs "$ref" _ hlr
    have h4 := hasKey_of_lookupKey fs "$id" _ hli
    simp only [convertJsonToBson]
    rw [if_neg (by simp [h1]), if_neg (by simp [h2]), if_pos (by simp [h3, h4])]
    simp [hli, hlr, objectIdOf, hs]
  · intro fs t i h1 h2 h3 hlt ht1 ht2 hi1 hi2
    have hk := hasKey_of_lookupKey fs "$timestamp" _ hlt
    simp only [convertJsonToBson]
    rw [if_neg (by simp [h1]), if_neg (by simp [h2]), if_neg (by simp [h3]), if_pos hk, hlt]
    simp [lookupKey, ht1, ht2, hi1, hi2]
  · intro fs s h1 h2 h3 h4 hld
    have hk := hasKey_of_lookupKey fs "$numberDecimal" _ hld
    simp only [convertJsonToBson]
    rw [if_neg (by simp [h1]), if_neg (by simp [h2]), if_neg (by simp [h3]),
      if_neg (by simp [h4]), if_pos hk, hld]
  · intro fs h
    simp only [noTagKeys, Bool.and_eq_true, Bool.not_eq_true'] at h
    obtain ⟨⟨⟨⟨hb, ho⟩, hr⟩, ht⟩, hd⟩ := h
    simp only [convertJsonToBson]
    rw [if_neg (by simp [hb]), if_neg (by simp [ho]), if_neg (by simp [hr]),
      if_neg (by simp [ht]), if_neg (by simp [hd])]
    cases hc : convertFields fs <;> simp [Except.map, hc]

theorem claim_C4_witness :
    lookupKey [("$oid", JValue.str "ff00ff00ff00ff00ff00ff00"), ("$binary", JValue.str "QUJD")]
        "$binary" = some (.str "QUJD") ∧
    convertJsonToBson (.obj [("$oid", .str "ff00ff00ff00ff00ff00ff00"),
        ("$binary", .str "QUJD")]) = .ok (.binary [65, 66, 67]) :=
  ⟨rfl, claim_C4_tag_precedence.1 _ "QUJD" [65, 66, 67] rfl rfl⟩

/-- Claim C5 (amended): a conversion error — in particular malformed base64
in a $binary payload — aborts the whole document conversion before the
output file is opened, so no partial or corrupted output exists; but the
error is caught inside json_to_bson and only printed, never re-raised to
the caller. -/
theorem claim_C5_error_caught (data : JValue) (e : PyErr)
    (h : convertJsonToBson data = .error e) :
    jsonToBsonRun data = .caughtNoFile e := by
  unfold jsonToBsonRun
  rw [h]

theorem claim_C5_witness :
    convertJsonToBson (.obj [("$numberDecimal", .num 5)]) = .error .typeErr ∧
    jsonToBsonRun (.obj [("$numberDecimal", .num 5)]) = .caughtNoFile .typeErr :=
  ⟨rfl, claim_C5_error_caught _ _ rfl⟩

/-- Counterexample to C5 as stated: on a document whose second field holds
malformed base64 under $binary, json_to_bson finishes with the
binascii.Error caught (and printed) rather than raising it to its caller —
the run outcome is caughtNoFile, not an escaping exception. -/
theorem claim_C5_counterexample :
    convertJsonToBson (.obj [("a", .num 1), ("b", .obj [("$binary", .str "AAAAA")])]) =
      .error .binasciiErr ∧
    jsonToBsonRun (.obj [("a", .num 1), ("b", .obj [("$binary", .str "AAAAA")])]) =
      .caughtNoFile .binasciiErr :=
  ⟨rfl, rfl⟩

/-- Claim C6: a JSON sequence is written as one binary record per element,
back to back in order; and a stream of three concatenated well-formed
documents decodes with decode_all to exactly those three documents, whose
re-encoding reproduces the original stream byte-identically. -/
theorem claim_C6_sequence_roundtrip :
    (∀ (ds : List JValue) (cs : List BValue) (outs : List (List Nat)),
      convertJsonToBson (.arr ds) = .ok (.arr cs) →
      List.Forall₂ (fun d o => bsonEncodeDoc d = .ok o) cs outs →
      jsonToBsonRun (.arr ds) = .success outs.flatten) ∧
    (∀ (fs1 fs2 fs3 : List (String × BValue)) (e1 e2 e3 : List Nat),
      wfBsonF fs1 = true → wfBsonF fs2 = true → wfBsonF fs3 = true →
      bsonEncodeDoc (.obj fs1) = .ok e1 → bsonEncodeDoc (.obj fs2) = .ok e2 →
      bsonEncodeDoc (.obj fs3) = .ok e3 →
      e1.length + e2.length + e3.length + 9 < 4294967296 →
      decodeAll (e1 ++ e2 ++ e3) = .ok [.obj fs1, .obj fs2, .obj fs3] ∧
      encodeDocsLoop [.obj fs1, .obj fs2, .obj fs3] [] = .success (e1 ++ e2 ++ e3)) := by
  constructor
  · intro ds cs outs hconv henc
    unfold jsonToBsonRun
    rw [hconv]
    have h := encodeDocsLoop_success cs outs [] henc
    simpa using h
  · intro fs1 fs2 fs3 e1 e2 e3 hw1 hw2 hw3 he1 he2 he3 hl
    refine ⟨decodeAll_three fs1 fs2 fs3 e1 e2 e3 hw1 hw2 hw3 he1 he2 he3 hl, ?_⟩
    have h := encodeDocsLoop_success [.obj fs1, .obj fs2, .obj fs3] [e1, e2, e3] []
      (.cons he1 (.cons he2 (.cons he3 .nil)))
    simpa using h

/-- Encoded bytes of the three C6 witness documents. -/
def c6e1 : List Nat := [12, 0, 0, 0, 16, 105, 0, 5, 0, 0, 0, 0]

def c6e2 : List Nat := [15, 0, 0, 0, 2, 115, 0, 3, 0, 0, 0, 97, 98, 0, 0]

def c6e3 : List Nat := [9, 0, 0, 0, 8, 98, 0, 1, 0]

theorem claim_C6_witness :
    jsonToBsonRun (.arr [.obj [("i", .num 5)], .obj [("s", .str "ab")],
        .obj [("b", .bool true)]]) = .success (c6e1 ++ c6e2 ++ c6e3) ∧
    decodeAll (c6e1 ++ c6e2 ++ c6e3) =
      .ok [.obj [("i", .num 5)], .obj [("s", .str "ab")], .obj [("b", .bool true)]] ∧
    encodeDocsLoop [.obj [("i", BValue.num 5)], .obj [("s", BValue.str "ab")],
        .obj [("b", BValue.bool true)]] [] = .success (c6e1 ++ c6e2 ++ c6e3) := by
  refine ⟨?_, ?_, ?_⟩
  · have h := claim_C6_sequence_roundtrip.1
      [.obj [("i", .num 5)], .obj [("s", .str "ab")], .obj [("b", .bool true)]]
      [.obj [("i", .num 5)], .obj [("s", .str "ab")], .obj [("b", .bool true)]]
      [c6e1, c6e2, c6e3] rfl (.cons rfl (.cons rfl (.cons rfl .nil)))
    simpa using h
  · exact (claim_C6_sequence_roundtrip.2 [("i", BValue.num 5)] [("s", BValue.str "ab")]
      [("b", BValue.bool true)] c6e1 c6e2 c6e3 (by decide) (by decide) (by decide)
      rfl rfl rfl (by decide)).1
  · exact (claim_C6_sequence_roundtrip.2 [("i", BValue.num 5)] [("s", BValue.str "ab")]
      [("b", BValue.bool true)] c6e1 c6e2 c6e3 (by decide) (by decide) (by decide)
      rfl rfl rfl (by decide)).2

/-- Claim C7: the encode direction maps each binary-native special value to
its tag form — Binary and raw bytes to the $binary/base64 mapping, ObjectId
to $oid, DBRef to $ref plus stringified $id, Timestamp to $timestamp with t
and i, Decimal128 to $numberDecimal — passes null, booleans, numbers and
strings through unchanged, and recurses elementwise into sequences and
fieldwise into mappings. The last conjunct checks the base64 payload on
bytes 77 97 110 (ASCII "Man" encodes as "TWFu"). -/
theorem claim_C7_encode_mapping :
    (∀ bs : List Nat, encodeBson (.binary bs) = .obj [("$binary", .str (b64encode bs))]) ∧
    (∀ s : String, encodeBson (.objectId s) = .obj [("$oid", .str s)]) ∧
    (∀ (c : String) (id : BValue), encodeBson (.dbref c id) =
      .obj [("$ref", .str c), ("$id", .str (pyStr id))]) ∧
    (∀ t i : Nat, encodeBson (.timestamp t i) =
      .obj [("$timestamp", .obj [("t", .num (t : Int)), ("i", .num (i : Int))])]) ∧
    (∀ s : String, encodeBson (.decimal128 s) = .obj [("$numberDecimal", .str s)]) ∧
    encodeBson .null = .null ∧
    (∀ b : Bool, encodeBson (.bool b) = .bool b) ∧
    (∀ n : Int, encodeBson (.num n) = .num n) ∧
    (∀ s : String, encodeBson (.str s) = .str s) ∧
    (∀ xs : List BValue, encodeBson (.arr xs) = .arr (xs.map encodeBson)) ∧
    (∀ fs : List (String × BValue), encodeBson (.obj fs) =
      .obj (fs.map (fun p => (p.1, encodeBson p.2)))) ∧
    encodeBson (.binary [77, 97, 110]) = .obj [("$binary", .str "TWFu")] := by
  refine ⟨fun bs => rfl, fun s => rfl, fun c id => rfl, fun t i => rfl, fun s => rfl,
    rfl, fun b => rfl, fun n => rfl, fun s => rfl, ?_, ?_, rfl⟩
  · intro xs
    simp [encodeBson, encodeBsonList_eq_map]
  · intro fs
    simp [encodeBson, encodeBsonFields_eq_map]

/-- Claim C8: a bare string with the literal "$binary:" prefix decodes to
the blob obtained by base64-decoding the remainder after the first colon,
while the encoder never emits such a string: binary values encode to the
$binary mapping form, and under the reserved-vocabulary well-formedness no
encoded value is a string starting with "$binary:". -/
theorem claim_C8_legacy_accept_only :
    (∀ bs : List Nat, (∀ b ∈ bs, b < 256) →
      convertJsonToBson (.str ("$binary:" ++ b64encode bs)) = .ok (.binary bs)) ∧
    (∀ (v : BValue) (s : String), wfRT v = true → encodeBson v = .str s →
      strStartsW s "$binary:" = false) := by
  constructor
  · intro bs h
    have hpre : strStartsW ("$binary:" ++ b64encode bs) "$binary:" = true := by
      unfold strStartsW
      rw [string_data_append]
      exact isPrefixOf_self_append _ _
    have hdata : ("$binary:" ++ b64encode bs).data = "$binary".data ++ ':' :: b64encodeL bs :=
      rfl
    have hsplit : splitChar ':' ("$binary:" ++ b64encode bs).data =
        ["$binary".data, b64encodeL bs] := by
      rw [hdata]
      exact splitChar_prefix ':' "$binary".data (b64encodeL bs) (by decide)
        (b64encodeL_no_colon bs h)
    simp only [convertJsonToBson]
    rw [if_pos hpre, hsplit]
    have hdec : b64decodeL (b64encodeL bs) = some bs := b64decode_b64encode bs h
    simp [hdec]
  · intro v s hw he
    cases v with
    | str s2 =>
      simp only [encodeBson, JValue.str.injEq] at he
      subst he
      simpa [wfRT] using hw
    | null => simp [encodeBson] at he
    | bool b => simp [encodeBson] at he
    | num n => simp [encodeBson] at he
    | binary bs => simp [encodeBson] at he
    | objectId o => simp [encodeBson] at he
    | dbref c id => simp [encodeBson] at he
    | timestamp t i => simp [encodeBson] at he
    | decimal128 d => simp [encodeBson] at he
    | arr xs => simp [encodeBson] at he
    | obj fs => simp [encodeBson] at he

theorem claim_C8_witness :
    (∀ b ∈ [77, 97, 110], b < 256) ∧
    convertJsonToBson (.str ("$binary:" ++ b64encode [77, 97, 110])) =
      .ok (.binary [77, 97, 110]) :=
  ⟨by decide, claim_C8_legacy_accept_only.1 [77, 97, 110] (by decide)⟩

/-- Claim C9 (amended): with the empty filter substring, every element of
the claimed shape (a mapping whose AssetName, when present, is a string) is
removed — the empty string is a substring of every AssetName value,
including the default empty string for a missing field — so the rewritten
Elements sequence is empty. -/
theorem claim_C9_empty_substring (elems : List JValue)
    (h : elems.all elemShapeOk = true) :
    filterElements "" elems = .ok [] := by
  induction elems with
  | nil => rfl
  | cons e t ih =>
    rw [List.all_cons, Bool.and_eq_true] at h
    unfold filterElements
    simp only [keepElem_eq_specKeep "" e h.1, specKeep_empty_key e h.1]
    exact ih h.2

theorem claim_C9_witness :
    ([JValue.obj [("AssetName", JValue.str "anything")], JValue.obj []].all elemShapeOk
      = true) ∧
    filterElements "" [JValue.obj [("AssetName", JValue.str "anything")], JValue.obj []] =
      .ok [] :=
  ⟨by decide, claim_C9_empty_substring _ (by decide)⟩

/-- Counterexample to C9 as stated: an element whose AssetName is a list is
kept by the empty-substring filter — Python evaluates '' in [] as list
membership, which is False — so the rewritten Elements sequence is not
always empty. -/
theorem claim_C9_counterexample :
    filterElements "" [.obj [("AssetName", .arr [])]] =
      .ok [.obj [("AssetName", .arr [])]] := rfl

/-- Claim C10 (amended): in the $ref/$id decode branch the $id value is
always wrapped in ObjectId, so a string $id succeeds exactly when it is 24
hexadecimal characters: any other string raises InvalidId, and a document
reference whose original id was a plain non-hex string does not round-trip
through encode and decode. A null $id, however, also succeeds (ObjectId of
None generates a fresh id), so success is not limited to valid hex
strings. -/
theorem claim_C10_ref_id_objectid :
    (∀ (fs : List (String × JValue)) (s : String),
      hasKey fs "$binary" = false → hasKey fs "$oid" = false →
      hasKey fs "$ref" = true → lookupKey fs "$id" = some (.str s) →
      isOidStr s = false →
      convertJsonToBson (.obj fs) = .error .invalidId) ∧
    (∀ c s : String, isOidStr s = false →
      convertJsonToBson (encodeBson (.dbref c (.str s))) = .error .invalidId) := by
  constructor
  · intro fs s h1 h2 h3 hid hs
    have h4 := hasKey_of_lookupKey fs "$id" _ hid
    simp only [convertJsonToBson]
    rw [if_neg (by simp [h1]), if_neg (by simp [h2]), if_pos (by simp [h3, h4])]
    simp [hid, objectIdOf, hs]
  · intro c s hs
    simp only [encodeBson, pyStr]
    simp only [convertJsonToBson]
    simp [hasKey, lookupKey, objectIdOf, hs]

theorem claim_C10_witness :
    lookupKey [("$ref", JValue.str "items"), ("$id", JValue.str "user42")] "$id" =
      some (.str "user42") ∧
    convertJsonToBson (.obj [("$ref", .str "items"), ("$id", .str "user42")]) =
      .error .invalidId :=
  ⟨rfl, claim_C10_ref_id_objectid.1 _ "user42" rfl rfl rfl rfl (by decide)⟩

/-- Counterexample to C10 as stated: a mapping whose $id is null decodes
successfully — ObjectId(None) generates a fresh identifier instead of
raising — so decode does not succeed only for 24-hex-character strings.
The model stands the generated identifier in as genOidStr; only the
success matters. -/
theorem claim_C10_counterexample :
    convertJsonToBson (.obj [("$ref", .str "c"), ("$id", .null)]) =
      .ok (.dbref "c" (.objectId genOidStr)) := rfl

end MspBson
